import Mathlib

/-! Schelling segregation model (`schelling.c`).

A shallow embedding of the simulation engine of `schelling.c`:
`check_placement`, `unhappy_boolean`, `check_agents`, `move_placement`
and the simulation loop of `main`.

* C `int` values are `Int` (the board is small enough that `rows*cols`
  does not overflow, as `main` already needs for its `malloc`).
* The board is a `List Char`; a read or write outside the list is undefined
  behaviour in C and is the result `none` here.
* C `float` values are binary32 numbers, written `m * 2^e`.
* Every loop is a structural recursion on the number of iterations the loop
  has left, which is computed from the loop bound of the source.
-/

namespace Schelling

/-! ## Memory accesses -/

/-- The read `xs[i]` of a C array: `none` outside the allocated cells. -/
def rd {α : Type} (xs : List α) (i : Int) : Option α :=
  if 0 ≤ i then xs[i.toNat]? else none

/-- The write `xs[i] = v` of a C array: `none` outside the allocated cells. -/
def wr {α : Type} (xs : List α) (i : Int) (v : α) : Option (List α) :=
  if 0 ≤ i ∧ i.toNat < xs.length then some (xs.set i.toNat v) else none

/-! ## Single-precision values -/

/-- A binary32 value: not-a-number, the two infinities, or the finite number
`m * 2^e`. -/
inductive F32 where
  | nan : F32
  | ninf : F32
  | pinf : F32
  | fin (m : Int) (e : Int) : F32
deriving DecidableEq, Repr

/-- The comparison `x < y` of two floats; it is false as soon as one side is
not a number. -/
def F32.lt : F32 → F32 → Bool
  | .fin m1 e1, .fin m2 e2 =>
    decide (m1 * 2 ^ (e1 - min e1 e2).toNat < m2 * 2 ^ (e2 - min e1 e2).toNat)
  | .ninf, .fin _ _ => true
  | .ninf, .pinf => true
  | .fin _ _, .pinf => true
  | _, _ => false

/-- The rational number a finite float stands for (`0` for the others). -/
def F32.toRat : F32 → ℚ
  | .fin m e => (m : ℚ) * (2 : ℚ) ^ e
  | _ => 0

/-- A rational number that a binary32 variable can hold: `m * 2^e` with a
24-bit significand and an exponent in the binary32 range. -/
def IsBinary32 (q : ℚ) : Prop :=
  ∃ m e : Int, |m| < 2 ^ 24 ∧ -149 ≤ e ∧ e ≤ 104 ∧ q = (m : ℚ) * (2 : ℚ) ^ e

/-- The least `k` (searching upwards from `k`) with `b ≤ a * 2^k`: the
number of binary places the quotient `a / b ≤ 1` lies below `1`. -/
def normShift (a b : Nat) : Nat → Nat → Nat
  | 0, k => k
  | fuel + 1, k => if b ≤ a * 2 ^ k then k else normShift a b fuel (k + 1)

/-- The float expression `count_same/(count_same+count_different)` of
`check_placement`, as stored in the `float` variable `amt_same`. Both
counters hold small whole numbers, so their sum is exact and only the division
rounds: `0.0/0.0` is not-a-number, and otherwise the quotient, which lies in
`[0, 1]`, is rounded to a 24-bit significand, to nearest with ties to even
(the IEEE 754 default, which C compilers use for `float` division). -/
def amt_same_of (count_same count_different : Nat) : F32 :=
  let total := count_same + count_different
  if total = 0 then .nan
  else if count_same = 0 then .fin 0 0
  else
    let k := normShift count_same total total 0
    let num := count_same * 2 ^ (23 + k)
    let q := num / total
    let r := num % total
    let m := if total < 2 * r ∨ (2 * r = total ∧ q % 2 = 1) then q + 1 else q
    .fin (m : Int) (-((23 + k : Nat) : Int))

/-! ## `check_placement` -/

/-- The block that `check_placement` repeats for each neighbour index `i`:
`if(board[i]!=' '){ if(board[i]==type){count_same++;} else{count_different++;} }`
on the pair `(count_same, count_different)`. -/
def tally (board : List Char) (i : Int) (type : Char) (c : Nat × Nat) :
    Option (Nat × Nat) :=
  match rd board i with
  | none => none
  | some ch =>
    if ch ≠ ' ' then
      if ch = type then some (c.1 + 1, c.2) else some (c.1, c.2 + 1)
    else some c

/-- The two counters of `check_placement` after its eight guarded neighbour
blocks (lines 222-298). -/
def count_neighbours (board : List Char) (row col rows cols : Int) (type : Char) :
    Option (Nat × Nat) :=
  let right := row * cols + col + 1
  let left := row * cols + col - 1
  let bottom := (row + 1) * cols + col
  let top := (row - 1) * cols + col
  let top_right := (row - 1) * cols + col + 1
  let top_left := (row - 1) * cols + col - 1
  let bottom_right := (row + 1) * cols + col + 1
  let bottom_left := (row + 1) * cols + col - 1
  (if row ≠ 0 then
      (tally board top type (0, 0)).bind fun c =>
      (if col ≠ 0 then tally board top_left type c else some c).bind fun c =>
      (if col ≠ cols - 1 then tally board top_right type c else some c)
    else some (0, 0)).bind fun c =>
  (if row ≠ rows - 1 then
      (tally board bottom type c).bind fun c =>
      (if col ≠ 0 then tally board bottom_left type c else some c).bind fun c =>
      (if col ≠ cols - 1 then tally board bottom_right type c else some c)
    else some c).bind fun c =>
  (if col ≠ 0 then tally board left type c else some c).bind fun c =>
  (if col ≠ cols - 1 then tally board right type c else some c)

/-- The function `check_placement`: `1` when the occupant of type `type` at `(row, col)`
is happy, `0` when it is unhappy. -/
def check_placement (board : List Char) (row col rows cols : Int)
    (threshold : F32) (type : Char) : Option Int :=
  if type = ' ' then some 1
  else
    match count_neighbours board row col rows cols type with
    | none => none
    | some c =>
      let amt_same := amt_same_of c.1 c.2
      if F32.lt amt_same threshold then some 0 else some 1

/-! ## `unhappy_boolean` -/

/-- The loop of `unhappy_boolean` from index `i`, with `k` iterations left. -/
def unhappy_boolean_loop (unhappy_spots : List Int) : Nat → Int → Option Int
  | 0, _ => some 0
  | k + 1, i =>
    match rd unhappy_spots i with
    | none => none
    | some v => if v ≠ -1 then some 1 else unhappy_boolean_loop unhappy_spots k (i + 1)

/-- The function `unhappy_boolean`: `1` when one of the first `num_chars` entries is not
the placeholder `-1`. -/
def unhappy_boolean (unhappy_spots : List Int) (num_chars : Int) : Option Int :=
  unhappy_boolean_loop unhappy_spots num_chars.toNat 0

/-! ## `check_agents` -/

/-- The inner loop of `check_agents` over the columns of `row`, from column
`col` with `k` iterations left, on the pair `(unhappy_spots, index)`. -/
def check_agents_cols (board : List Char) (rows cols : Int) (threshold : F32)
    (row : Int) : Nat → Int → List Int × Int → Option (List Int × Int)
  | 0, _, st => some st
  | k + 1, col, st =>
    match rd board (row * cols + col) with
    | none => none
    | some type =>
      match check_placement board row col rows cols threshold type with
      | none => none
      | some happiness =>
        if happiness = 0 then
          match wr st.1 st.2 (row * cols + col) with
          | none => none
          | some spots => check_agents_cols board rows cols threshold row k (col + 1) (spots, st.2 + 1)
        else check_agents_cols board rows cols threshold row k (col + 1) st

/-- The outer loop of `check_agents` over the rows, from `row` with `k`
iterations left. -/
def check_agents_rows (board : List Char) (rows cols : Int) (threshold : F32) :
    Nat → Int → List Int × Int → Option (List Int × Int)
  | 0, _, st => some st
  | k + 1, row, st =>
    match check_agents_cols board rows cols threshold row cols.toNat 0 st with
    | none => none
    | some st1 => check_agents_rows board rows cols threshold k (row + 1) st1

/-- The function `check_agents`: the buffer `unhappy_spots` after the scan wrote the
flattened index of every unhappy spot at its front. -/
def check_agents (board : List Char) (unhappy_spots : List Int) (rows cols : Int)
    (threshold : F32) : Option (List Int) :=
  (check_agents_rows board rows cols threshold rows.toNat 0 (unhappy_spots, 0)).map Prod.fst

/-! ## `move_placement` -/

/-- The two assignments `board[current_position]=board[row*cols+col];
board[row*cols+col]=' ';` that carry out a move. -/
def relocate (board : List Char) (origin current_position : Int) : Option (List Char) :=
  match rd board origin with
  | none => none
  | some occupant =>
    match wr board current_position occupant with
    | none => none
    | some b => wr b origin ' '

/-- The first loop of `move_placement`, `while (current_position <
rows*cols-1)`, with `k` iterations left: `some (some b)` when it returned the
board `b`, `some none` when it ran to its end without finding an open spot. -/
def move_forward (board : List Char) (origin : Int) :
    Nat → Int → Option (Option (List Char))
  | 0, _ => some none
  | k + 1, current_position =>
    match rd board (current_position + 1) with
    | none => none
    | some ch =>
      if ch = ' ' then (relocate board origin (current_position + 1)).map some
      else move_forward board origin k (current_position + 1)

/-- The second loop of `move_placement`, `while (current_position <
row*cols+col)` from `0`, with `k` iterations left, followed by the final
`return board`. -/
def move_wrapped (board : List Char) (origin : Int) : Nat → Int → Option (List Char)
  | 0, _ => some board
  | k + 1, current_position =>
    match rd board current_position with
    | none => none
    | some ch =>
      if ch = ' ' then relocate board origin current_position
      else move_wrapped board origin k (current_position + 1)

/-- The function `move_placement`: the board after the agent at `(row, col)` moved to the
nearest open spot after it, wrapping around to the start of the board. -/
def move_placement (board : List Char) (row col rows cols : Int) : Option (List Char) :=
  let origin := row * cols + col
  match move_forward board origin (rows * cols - 1 - origin).toNat origin with
  | none => none
  | some (some b) => some b
  | some none => move_wrapped board origin origin.toNat 0

/-! ## The simulation loop of `main` -/

/-- The variables of `main` that the simulation loop changes, and `moves`,
the number of calls of `move_placement` made so far. -/
structure Sim where
  board : List Char
  unhappy_spots : List Int
  num_iterations : Int
  moves : Nat
deriving DecidableEq, Repr

/-- How a piece of `main` ends: by undefined behaviour, by running out of the
fuel of the embedding, by the `return 0` inside the `for` loop (`exit`), or
by reaching its end (`next`). -/
inductive Flow where
  | fault : Flow
  | fuel : Flow
  | exit (s : Sim) : Flow
  | next (s : Sim) : Flow
deriving DecidableEq, Repr

/-- The loop `for (j=0; j<num_p+num_d; j++) unhappy_spots[j]=-1;` from index
`j`, with `k` iterations left. -/
def fill_placeholders : Nat → Int → List Int → Option (List Int)
  | 0, _, spots => some spots
  | k + 1, j, spots =>
    match wr spots j (-1) with
    | none => none
    | some spots1 => fill_placeholders k (j + 1) spots1

/-- The loop `for(int i=0; i<num_p+num_d;i++)` of one round (lines 148-179),
from index `i` with `k` iterations left. Printing is left out. -/
def round_loop (rows cols : Int) : Nat → Int → Sim → Flow
  | 0, _, s => .next s
  | k + 1, i, s =>
    match rd s.unhappy_spots i with
    | none => .fault
    | some v =>
      if v ≠ -1 then
        let current_col := Int.tmod v cols
        let current_row := Int.tdiv v cols
        match move_placement s.board current_row current_col rows cols with
        | none => .fault
        | some b =>
          let s1 : Sim :=
            { s with board := b, num_iterations := s.num_iterations - 1, moves := s.moves + 1 }
          if s1.num_iterations = 0 then .exit s1
          else round_loop rows cols k (i + 1) s1
      else round_loop rows cols k (i + 1) s

/-- The `while` loop of `main` (lines 145-187). Each round that does not end
the program is followed by the reset of the buffer and a new scan. The
recursion is on `fuel`, an upper bound of the number of rounds. -/
def while_loop (rows cols : Int) (threshold : F32) (num_chars : Int) : Nat → Sim → Flow
  | fuel, s =>
    match unhappy_boolean s.unhappy_spots num_chars with
    | none => .fault
    | some ub =>
      if ub = 1 ∧ s.num_iterations > 0 then
        match fuel with
        | 0 => .fuel
        | fuel1 + 1 =>
          match round_loop rows cols num_chars.toNat 0 s with
          | .next s1 =>
            match fill_placeholders num_chars.toNat 0 s1.unhappy_spots with
            | none => .fault
            | some spots0 =>
              match check_agents s1.board spots0 rows cols threshold with
              | none => .fault
              | some spots => while_loop rows cols threshold num_chars fuel1 { s1 with unhappy_spots := spots }
          | r => r
      else .next s

/-- Lines 122-187 of `main`: the buffer of `num_chars = num_p+num_d` entries
is allocated and filled with `-1`, the board is scanned, and the `while` loop
runs with the remaining budget as its fuel. -/
def simulate (board : List Char) (rows cols : Int) (num_iterations : Int)
    (threshold : F32) (num_chars : Int) : Flow :=
  match fill_placeholders num_chars.toNat 0 (List.replicate num_chars.toNat 0) with
  | none => .fault
  | some spots0 =>
    match check_agents board spots0 rows cols threshold with
    | none => .fault
    | some spots =>
      while_loop rows cols threshold num_chars num_iterations.toNat
        { board := board, unhappy_spots := spots, num_iterations := num_iterations, moves := 0 }

/-- The state `main` ends in, whichever `return 0` it takes. -/
def Flow.final : Flow → Option Sim
  | .exit s => some s
  | .next s => some s
  | _ => none

/-! ## Notions of the specification -/

/-- The number of non-empty cells of a board. -/
def occupied (board : List Char) : Nat :=
  board.countP (fun ch => ch ≠ ' ')

/-- The eight offsets `(dr, dc)` of the Moore neighbourhood. -/
def moore_offsets : List (Int × Int) :=
  [(-1, -1), (-1, 0), (-1, 1), (0, -1), (0, 1), (1, -1), (1, 0), (1, 1)]

/-- The number of Moore neighbours of `(row, col)` that lie inside the grid,
are not empty and whose character satisfies `pred`. -/
def neighbours_where (board : List Char) (row col rows cols : Int) (pred : Char → Bool) :
    Nat :=
  moore_offsets.countP fun d =>
    decide (0 ≤ row + d.1 ∧ row + d.1 < rows ∧ 0 ≤ col + d.2 ∧ col + d.2 < cols) &&
      match rd board ((row + d.1) * cols + (col + d.2)) with
      | some ch => ch != ' ' && pred ch
      | none => false

/-- The number `same` of the specification: the in-bounds, non-empty
neighbours that hold `type`. -/
def same_neighbours (board : List Char) (row col rows cols : Int) (type : Char) : Nat :=
  neighbours_where board row col rows cols (fun ch => ch == type)

/-- The number `different` of the specification: the in-bounds, non-empty
neighbours that hold another character than `type`. -/
def different_neighbours (board : List Char) (row col rows cols : Int) (type : Char) : Nat :=
  neighbours_where board row col rows cols (fun ch => ch != type)

/-- What the cell `(r, c)` adds to the pair `(same, different)`: nothing when
it is outside the grid or empty. -/
def nb (board : List Char) (rows cols r c : Int) (type : Char) : Nat × Nat :=
  if 0 ≤ r ∧ r < rows ∧ 0 ≤ c ∧ c < cols then
    match rd board (r * cols + c) with
    | some ch => if ch ≠ ' ' then (if ch = type then (1, 0) else (0, 1)) else (0, 0)
    | none => (0, 0)
  else (0, 0)

/-- Whether the cell of flattened index `i` is non-empty and `check_placement`
returns `0` for it. -/
def unhappy_at (board : List Char) (rows cols : Int) (threshold : F32) (i : Nat) : Bool :=
  match board[i]? with
  | some ch =>
    ch != ' ' &&
      (check_placement board ((i : Int) / cols) ((i : Int) % cols) rows cols threshold ch
        == some 0)
  | none => false

/-- The flattened indices of the unhappy occupants, in increasing order. -/
def unhappy_indices (board : List Char) (rows cols : Int) (threshold : F32) : List Int :=
  ((List.range (rows * cols).toNat).filter (unhappy_at board rows cols threshold)).map
    Int.ofNat

/-- The buffer of `num_chars` entries after a scan of the board: the unhappy
indices at its front, the placeholder `-1` behind them. -/
def scanned (board : List Char) (rows cols : Int) (threshold : F32) (num_chars : Nat) :
    List Int :=
  unhappy_indices board rows cols threshold ++
    List.replicate (num_chars - (unhappy_indices board rows cols threshold).length) (-1)

/-- The board after `move_placement` was applied, one after the other, at the
flattened indices of the list, each split into `index / cols` and
`index % cols` as the round does. -/
def apply_moves (rows cols : Int) : List Int → List Char → Option (List Char)
  | [], board => some board
  | v :: vs, board =>
    match move_placement board (Int.tdiv v cols) (Int.tmod v cols) rows cols with
    | none => none
    | some b => apply_moves rows cols vs b

/-- The board indices at which `check_placement` runs its neighbour block,
in the order of the source: the guards of lines 235-298 with the index of
each block, and nothing of the board. -/
def neighbour_reads (row col rows cols : Int) : List Int :=
  let right := row * cols + col + 1
  let left := row * cols + col - 1
  let bottom := (row + 1) * cols + col
  let top := (row - 1) * cols + col
  let top_right := (row - 1) * cols + col + 1
  let top_left := (row - 1) * cols + col - 1
  let bottom_right := (row + 1) * cols + col + 1
  let bottom_left := (row + 1) * cols + col - 1
  (if row ≠ 0 then
      [top] ++ (if col ≠ 0 then [top_left] else []) ++
        (if col ≠ cols - 1 then [top_right] else [])
    else []) ++
  (if row ≠ rows - 1 then
      [bottom] ++ (if col ≠ 0 then [bottom_left] else []) ++
        (if col ≠ cols - 1 then [bottom_right] else [])
    else []) ++
  (if col ≠ 0 then [left] else []) ++
  (if col ≠ cols - 1 then [right] else [])

/-- The neighbour block of `check_placement` run at each index of a list, one
after the other. -/
def tally_all (board : List Char) (type : Char) : List Int → Nat × Nat → Option (Nat × Nat)
  | [], c => some c
  | i :: is, c => (tally board i type c).bind (tally_all board type is)

/-- The loop of one round with a monitor: `round_loop`, except that it ends
in a fault when the cell about to be relocated is empty or does not hold the
character it held on `board0`, the board at the start of the round. -/
def round_loop_monitored (board0 : List Char) (rows cols : Int) : Nat → Int → Sim → Flow
  | 0, _, s => .next s
  | k + 1, i, s =>
    match rd s.unhappy_spots i with
    | none => .fault
    | some v =>
      if v ≠ -1 then
        if rd s.board v = some ' ' ∨ rd s.board v ≠ rd board0 v then .fault
        else
          let current_col := Int.tmod v cols
          let current_row := Int.tdiv v cols
          match move_placement s.board current_row current_col rows cols with
          | none => .fault
          | some b =>
            let s1 : Sim :=
              { s with board := b, num_iterations := s.num_iterations - 1, moves := s.moves + 1 }
            if s1.num_iterations = 0 then .exit s1
            else round_loop_monitored board0 rows cols k (i + 1) s1
      else round_loop_monitored board0 rows cols k (i + 1) s

/-- The `while` loop of `main` with the monitored round. -/
def while_loop_monitored (rows cols : Int) (threshold : F32) (num_chars : Int) :
    Nat → Sim → Flow
  | fuel, s =>
    match unhappy_boolean s.unhappy_spots num_chars with
    | none => .fault
    | some ub =>
      if ub = 1 ∧ s.num_iterations > 0 then
        match fuel with
        | 0 => .fuel
        | fuel1 + 1 =>
          match round_loop_monitored s.board rows cols num_chars.toNat 0 s with
          | .next s1 =>
            match fill_placeholders num_chars.toNat 0 s1.unhappy_spots with
            | none => .fault
            | some spots0 =>
              match check_agents s1.board spots0 rows cols threshold with
              | none => .fault
              | some spots =>
                while_loop_monitored rows cols threshold num_chars fuel1
                  { s1 with unhappy_spots := spots }
          | r => r
      else .next s

/-- The simulation of `main` with the monitored round. -/
def simulate_monitored (board : List Char) (rows cols : Int) (num_iterations : Int)
    (threshold : F32) (num_chars : Int) : Flow :=
  match fill_placeholders num_chars.toNat 0 (List.replicate num_chars.toNat 0) with
  | none => .fault
  | some spots0 =>
    match check_agents board spots0 rows cols threshold with
    | none => .fault
    | some spots =>
      while_loop_monitored rows cols threshold num_chars num_iterations.toNat
        { board := board, unhappy_spots := spots, num_iterations := num_iterations, moves := 0 }

/-- The board after the occupant of cell `p` went to cell `j`. -/
def movedTo (board : List Char) (p j : Nat) : List Char :=
  (board.set j (board.getD p ' ')).set p ' '

/-! ## Memory accesses at natural-number indices -/

theorem rd_natCast {α : Type} (xs : List α) (i : Nat) : rd xs (i : Int) = xs[i]? := by
  simp [rd]

theorem wr_natCast {α : Type} (xs : List α) (i : Nat) (v : α) :
    wr xs (i : Int) v = if i < xs.length then some (xs.set i v) else none := by
  simp [wr]

theorem rd_neg {α : Type} (xs : List α) (i : Int) (h : i < 0) : rd xs i = none := by
  simp [rd]; omega

theorem relocate_eq (board : List Char) (p j : Nat) (hp : p < board.length)
    (hj : j < board.length) :
    relocate board (p : Int) (j : Int) = some (movedTo board p j) := by
  simp [relocate, rd_natCast, wr_natCast, movedTo, hp, hj, List.getElem?_eq_getElem,
    List.getD_eq_getElem?_getD]

/-! ## The loops of `move_placement` -/

theorem move_forward_none (board : List Char) (o : Int) :
    ∀ (k cur : Nat), cur + k < board.length →
      (∀ j, cur < j → j ≤ cur + k → board[j]? ≠ some ' ') →
      move_forward board o k (cur : Int) = some none := by
  intro k
  induction k with
  | zero => intro cur _ _; rfl
  | succ k ih =>
    intro cur hlen hne
    have h1 : cur + 1 < board.length := by omega
    have hc : ((cur : Int) + 1) = ((cur + 1 : Nat) : Int) := by push_cast; rfl
    have hx := hne (cur + 1) (by omega) (by omega)
    rw [move_forward, hc, rd_natCast, List.getElem?_eq_getElem h1]
    rw [List.getElem?_eq_getElem h1] at hx
    have hx1 : board[cur + 1] ≠ ' ' := fun h => hx (by rw [h])
    simp only [hx1, if_false]
    exact ih (cur + 1) (by omega) (fun j hj1 hj2 => hne j (by omega) (by omega))

theorem move_forward_found (board : List Char) (p : Nat) (hp : p < board.length) :
    ∀ (k cur j : Nat), cur + k < board.length → cur < j → j ≤ cur + k →
      board[j]? = some ' ' → (∀ i, cur < i → i < j → board[i]? ≠ some ' ') →
      move_forward board (p : Int) k (cur : Int) = some (some (movedTo board p j)) := by
  intro k
  induction k with
  | zero => intro cur j _ h1 h2; omega
  | succ k ih =>
    intro cur j hlen hcj hjk hj hbefore
    have h1 : cur + 1 < board.length := by omega
    have hc : ((cur : Int) + 1) = ((cur + 1 : Nat) : Int) := by push_cast; rfl
    rw [move_forward, hc, rd_natCast, List.getElem?_eq_getElem h1]
    by_cases hx : board[cur + 1] = ' '
    · have hjeq : j = cur + 1 := by
        by_contra hne
        exact hbefore (cur + 1) (by omega) (by omega) (by rw [List.getElem?_eq_getElem h1, hx])
      subst hjeq
      simp only [hx, if_true]
      rw [relocate_eq board p (cur + 1) hp h1]; rfl
    · simp only [hx, if_false]
      have hjne : j ≠ cur + 1 := by
        intro hjeq
        rw [hjeq, List.getElem?_eq_getElem h1] at hj
        exact hx (Option.some.inj hj)
      exact ih (cur + 1) j (by omega) (by omega) (by omega) hj
        (fun i hi1 hi2 => hbefore i (by omega) hi2)

theorem move_wrapped_none (board : List Char) (o : Int) :
    ∀ (k cur : Nat), cur + k ≤ board.length →
      (∀ j, cur ≤ j → j < cur + k → board[j]? ≠ some ' ') →
      move_wrapped board o k (cur : Int) = some board := by
  intro k
  induction k with
  | zero => intro cur _ _; rfl
  | succ k ih =>
    intro cur hlen hne
    have h1 : cur < board.length := by omega
    have hc : ((cur : Int) + 1) = ((cur + 1 : Nat) : Int) := by push_cast; rfl
    have hx := hne cur (by omega) (by omega)
    rw [move_wrapped, rd_natCast, List.getElem?_eq_getElem h1]
    rw [List.getElem?_eq_getElem h1] at hx
    have hx1 : board[cur] ≠ ' ' := fun h => hx (by rw [h])
    simp only [hx1, if_false]
    rw [hc]
    exact ih (cur + 1) (by omega) (fun j hj1 hj2 => hne j (by omega) (by omega))

theorem move_wrapped_found (board : List Char) (p : Nat) (hp : p < board.length) :
    ∀ (k cur j : Nat), cur + k ≤ board.length → cur ≤ j → j < cur + k →
      board[j]? = some ' ' → (∀ i, cur ≤ i → i < j → board[i]? ≠ some ' ') →
      move_wrapped board (p : Int) k (cur : Int) = some (movedTo board p j) := by
  intro k
  induction k with
  | zero => intro cur j _ h1 h2; omega
  | succ k ih =>
    intro cur j hlen hcj hjk hj hbefore
    have h1 : cur < board.length := by omega
    have hc : ((cur : Int) + 1) = ((cur + 1 : Nat) : Int) := by push_cast; rfl
    rw [move_wrapped, rd_natCast, List.getElem?_eq_getElem h1]
    by_cases hx : board[cur] = ' '
    · have hjeq : j = cur := by
        by_contra hne
        exact hbefore cur (by omega) (by omega) (by rw [List.getElem?_eq_getElem h1, hx])
      subst hjeq
      simp only [hx, if_true]
      exact relocate_eq board p j hp h1
    · simp only [hx, if_false]
      have hjne : j ≠ cur := by
        intro hjeq
        rw [hjeq, List.getElem?_eq_getElem h1] at hj
        exact hx (Option.some.inj hj)
      rw [hc]
      exact ih (cur + 1) j (by omega) (by omega) (by omega) hj
        (fun i hi1 hi2 => hbefore i (by omega) hi2)

/-! ## What `move_placement` does, by where the nearest open spot is -/

/-- An open spot after the origin: the agent goes to the first of them. -/
theorem move_placement_after (board : List Char) (row col rows cols : Int) (p j : Nat)
    (hN : rows * cols = (board.length : Int)) (hpos : row * cols + col = (p : Int))
    (hpj : p < j) (hj : board[j]? = some ' ')
    (hbefore : ∀ i, p < i → i < j → board[i]? ≠ some ' ') :
    move_placement board row col rows cols = some (movedTo board p j) := by
  have hjl : j < board.length := by
    by_contra h
    rw [List.getElem?_eq_none (by omega)] at hj
    exact Option.noConfusion hj
  have hk : (rows * cols - 1 - (p : Int)).toNat = board.length - 1 - p := by omega
  simp only [move_placement, hpos, hk]
  rw [move_forward_found board p (by omega) (board.length - 1 - p) p j (by omega) hpj
    (by omega) hj hbefore]

/-- No open spot after the origin, but one before it: the agent goes to the
first open spot of the board. -/
theorem move_placement_before (board : List Char) (row col rows cols : Int) (p j : Nat)
    (hN : rows * cols = (board.length : Int)) (hpos : row * cols + col = (p : Int))
    (hp : p < board.length) (hafter : ∀ i, p < i → board[i]? ≠ some ' ')
    (hjp : j < p) (hj : board[j]? = some ' ')
    (hbefore : ∀ i, i < j → board[i]? ≠ some ' ') :
    move_placement board row col rows cols = some (movedTo board p j) := by
  have hk : (rows * cols - 1 - (p : Int)).toNat = board.length - 1 - p := by omega
  simp only [move_placement, hpos, hk]
  rw [move_forward_none board p (board.length - 1 - p) p (by omega)
    (fun i hi _ => hafter i hi)]
  simp only [Int.toNat_ofNat]
  exact move_wrapped_found board p hp p 0 j (by omega) (by omega) (by omega) hj
    (fun i _ hi => hbefore i hi)

/-- No open spot anywhere but possibly at the origin: the board stays as it
is. -/
theorem move_placement_none (board : List Char) (row col rows cols : Int) (p : Nat)
    (hN : rows * cols = (board.length : Int)) (hpos : row * cols + col = (p : Int))
    (hp : p < board.length) (hfull : ∀ i, i ≠ p → board[i]? ≠ some ' ') :
    move_placement board row col rows cols = some board := by
  have hk : (rows * cols - 1 - (p : Int)).toNat = board.length - 1 - p := by omega
  simp only [move_placement, hpos, hk]
  rw [move_forward_none board p (board.length - 1 - p) p (by omega)
    (fun i hi _ => hfull i (by omega))]
  simp only [Int.toNat_ofNat]
  exact move_wrapped_none board p p 0 (by omega) (fun i _ hi => hfull i (by omega))

theorem flat_bounds (rows cols r c : Int) (hr0 : 0 ≤ r) (hr : r < rows) (hc0 : 0 ≤ c)
    (hc : c < cols) : 0 ≤ r * cols + c ∧ r * cols + c < rows * cols := by
  constructor
  · have := mul_nonneg hr0 (by omega : (0:Int) ≤ cols); omega
  · have h1 : (r + 1) * cols ≤ rows * cols :=
      mul_le_mul_of_nonneg_right (by omega) (by omega)
    have h2 : (r + 1) * cols = r * cols + cols := by ring
    omega

theorem rd_flat (board : List Char) (rows cols r c : Int)
    (hN : rows * cols = (board.length : Int))
    (hin : 0 ≤ r ∧ r < rows ∧ 0 ≤ c ∧ c < cols) :
    ∃ ch, rd board (r * cols + c) = some ch := by
  obtain ⟨h0, h1⟩ := flat_bounds rows cols r c hin.1 hin.2.1 hin.2.2.1 hin.2.2.2
  have hlt : (r * cols + c).toNat < board.length := by omega
  exact ⟨board[(r * cols + c).toNat], by simp [rd, h0, List.getElem?_eq_getElem hlt]⟩

theorem tally_nb (board : List Char) (rows cols r c : Int) (type : Char) (i : Int)
    (acc : Nat × Nat) (hN : rows * cols = (board.length : Int))
    (hin : 0 ≤ r ∧ r < rows ∧ 0 ≤ c ∧ c < cols) (hi : i = r * cols + c) :
    tally board i type acc = some (acc + nb board rows cols r c type) := by
  obtain ⟨ch, hrd⟩ := rd_flat board rows cols r c hN hin
  obtain ⟨a, b⟩ := acc
  subst hi
  simp only [tally, nb, hin, hrd, and_self, if_true]
  split_ifs <;> simp

theorem nb_out (board : List Char) (rows cols r c : Int) (type : Char)
    (h : ¬ (0 ≤ r ∧ r < rows ∧ 0 ≤ c ∧ c < cols)) : nb board rows cols r c type = (0, 0) := by
  simp only [nb, h, if_false]

theorem guarded_tally (board : List Char) (rows cols r c : Int) (type : Char) (i : Int)
    (acc : Nat × Nat) (g : Prop) [Decidable g] (hN : rows * cols = (board.length : Int))
    (hg : g ↔ (0 ≤ r ∧ r < rows ∧ 0 ≤ c ∧ c < cols)) (hi : i = r * cols + c) :
    (if g then tally board i type acc else some acc) =
      some (acc + nb board rows cols r c type) := by
  by_cases h : g
  · rw [if_pos h, tally_nb board rows cols r c type i acc hN (hg.mp h) hi]
  · rw [if_neg h, nb_out board rows cols r c type (fun hh => h (hg.mpr hh))]; simp

theorem guarded_row (board : List Char) (rows cols r col : Int) (type : Char)
    (i0 i1 i2 : Int) (acc : Nat × Nat) (g : Prop) [Decidable g]
    (hN : rows * cols = (board.length : Int)) (hc : 0 ≤ col ∧ col < cols)
    (hg : g ↔ (0 ≤ r ∧ r < rows)) (h0 : i0 = r * cols + col)
    (h1 : i1 = r * cols + (col - 1)) (h2 : i2 = r * cols + (col + 1)) :
    (if g then
        (tally board i0 type acc).bind fun c =>
        (if col ≠ 0 then tally board i1 type c else some c).bind fun c =>
        (if col ≠ cols - 1 then tally board i2 type c else some c)
      else some acc) =
      some (acc + nb board rows cols r col type + nb board rows cols r (col - 1) type
        + nb board rows cols r (col + 1) type) := by
  by_cases h : g
  · have hr := hg.mp h
    rw [if_pos h, tally_nb board rows cols r col type i0 acc hN ⟨hr.1, hr.2, hc.1, hc.2⟩ h0,
      Option.some_bind,
      guarded_tally board rows cols r (col - 1) type i1 _ (col ≠ 0) hN (by constructor <;> intro; omega; omega) h1]
    rw [Option.some_bind,
      guarded_tally board rows cols r (col + 1) type i2 _ (col ≠ cols - 1) hN (by omega) h2]
  · have hr : ¬ (0 ≤ r ∧ r < rows) := fun hh => h (hg.mpr hh)
    rw [if_neg h, nb_out board rows cols r col type (fun hh => hr ⟨hh.1, hh.2.1⟩),
      nb_out board rows cols r (col - 1) type (fun hh => hr ⟨hh.1, hh.2.1⟩),
      nb_out board rows cols r (col + 1) type (fun hh => hr ⟨hh.1, hh.2.1⟩)]
    simp


theorem count_neighbours_eq (board : List Char) (row col rows cols : Int) (type : Char)
    (hN : rows * cols = (board.length : Int))
    (hr : 0 ≤ row ∧ row < rows) (hc : 0 ≤ col ∧ col < cols) :
    count_neighbours board row col rows cols type =
      some (nb board rows cols (row - 1) col type + nb board rows cols (row - 1) (col - 1) type
        + nb board rows cols (row - 1) (col + 1) type
        + nb board rows cols (row + 1) col type + nb board rows cols (row + 1) (col - 1) type
        + nb board rows cols (row + 1) (col + 1) type
        + nb board rows cols row (col - 1) type + nb board rows cols row (col + 1) type) := by
  unfold count_neighbours
  simp only []
  rw [guarded_row board rows cols (row - 1) col type _ _ _ (0, 0) (row ≠ 0) hN hc (by omega)
    rfl (by ring) (by ring), Option.some_bind]
  rw [guarded_row board rows cols (row + 1) col type _ _ _ _ (row ≠ rows - 1) hN hc (by omega)
    rfl (by ring) (by ring), Option.some_bind]
  rw [guarded_tally board rows cols row (col - 1) type _ _ (col ≠ 0) hN (by omega) (by ring),
    Option.some_bind]
  rw [guarded_tally board rows cols row (col + 1) type _ _ (col ≠ cols - 1) hN (by omega)
    (by ring)]
  simp

theorem nb_fst (board : List Char) (rows cols r c : Int) (type : Char) :
    (nb board rows cols r c type).1 =
      if (decide (0 ≤ r ∧ r < rows ∧ 0 ≤ c ∧ c < cols) &&
        match rd board (r * cols + c) with
        | some ch => ch != ' ' && ch == type
        | none => false) = true then 1 else 0 := by
  unfold nb
  by_cases h : 0 ≤ r ∧ r < rows ∧ 0 ≤ c ∧ c < cols
  · rw [if_pos h]
    cases hrd : rd board (r * cols + c) with
    | none => simp
    | some ch =>
      by_cases h2 : ch = type
      · subst h2; by_cases h1 : ch = ' ' <;> simp [h, h1]
      · by_cases h1 : ch = ' ' <;> simp [h, h1, h2]
  · rw [if_neg h]; simp [h]

theorem nb_snd (board : List Char) (rows cols r c : Int) (type : Char) :
    (nb board rows cols r c type).2 =
      if (decide (0 ≤ r ∧ r < rows ∧ 0 ≤ c ∧ c < cols) &&
        match rd board (r * cols + c) with
        | some ch => ch != ' ' && ch != type
        | none => false) = true then 1 else 0 := by
  unfold nb
  by_cases h : 0 ≤ r ∧ r < rows ∧ 0 ≤ c ∧ c < cols
  · rw [if_pos h]
    cases hrd : rd board (r * cols + c) with
    | none => simp
    | some ch =>
      by_cases h2 : ch = type
      · subst h2; by_cases h1 : ch = ' ' <;> simp [h, h1]
      · by_cases h1 : ch = ' ' <;> simp [h, h1, h2]
  · rw [if_neg h]; simp [h]

theorem same_neighbours_eq (board : List Char) (row col rows cols : Int) (type : Char) :
    same_neighbours board row col rows cols type =
      (nb board rows cols (row - 1) col type + nb board rows cols (row - 1) (col - 1) type
        + nb board rows cols (row - 1) (col + 1) type
        + nb board rows cols (row + 1) col type + nb board rows cols (row + 1) (col - 1) type
        + nb board rows cols (row + 1) (col + 1) type
        + nb board rows cols row (col - 1) type + nb board rows cols row (col + 1) type).1 := by
  simp only [Prod.fst_add, nb_fst, same_neighbours, neighbours_where, moore_offsets,
    List.countP_cons, List.countP_nil, Int.sub_eq_add_neg, add_zero]
  omega

theorem different_neighbours_eq (board : List Char) (row col rows cols : Int) (type : Char) :
    different_neighbours board row col rows cols type =
      (nb board rows cols (row - 1) col type + nb board rows cols (row - 1) (col - 1) type
        + nb board rows cols (row - 1) (col + 1) type
        + nb board rows cols (row + 1) col type + nb board rows cols (row + 1) (col - 1) type
        + nb board rows cols (row + 1) (col + 1) type
        + nb board rows cols row (col - 1) type + nb board rows cols row (col + 1) type).2 := by
  simp only [Prod.snd_add, nb_snd, different_neighbours, neighbours_where, moore_offsets,
    List.countP_cons, List.countP_nil, Int.sub_eq_add_neg, add_zero]
  omega

theorem count_neighbours_spec (board : List Char) (row col rows cols : Int) (type : Char)
    (hN : rows * cols = (board.length : Int))
    (hr : 0 ≤ row ∧ row < rows) (hc : 0 ≤ col ∧ col < cols) :
    count_neighbours board row col rows cols type =
      some (same_neighbours board row col rows cols type,
        different_neighbours board row col rows cols type) := by
  rw [count_neighbours_eq board row col rows cols type hN hr hc, same_neighbours_eq,
    different_neighbours_eq]

theorem check_placement_eq (board : List Char) (row col rows cols : Int) (threshold : F32)
    (type : Char) (hN : rows * cols = (board.length : Int))
    (hr : 0 ≤ row ∧ row < rows) (hc : 0 ≤ col ∧ col < cols) (ht : type ≠ ' ') :
    check_placement board row col rows cols threshold type =
      some (if F32.lt (amt_same_of (same_neighbours board row col rows cols type)
        (different_neighbours board row col rows cols type)) threshold = true then 0 else 1) := by
  simp only [check_placement, if_neg ht, count_neighbours_spec board row col rows cols type hN hr hc]
  split_ifs <;> rfl

theorem check_placement_empty (board : List Char) (row col rows cols : Int) (threshold : F32) :
    check_placement board row col rows cols threshold ' ' = some 1 := by
  simp [check_placement]

theorem F32_lt_fin (m1 e1 m2 e2 : Int) :
    F32.lt (.fin m1 e1) (.fin m2 e2) = true ↔
      (m1 : ℚ) * (2 : ℚ) ^ e1 < (m2 : ℚ) * (2 : ℚ) ^ e2 := by
  have key : ∀ (m e lo : Int), lo ≤ e →
      (m : ℚ) * (2 : ℚ) ^ e = ((m * 2 ^ (e - lo).toNat : Int) : ℚ) * (2 : ℚ) ^ lo := by
    intro m e lo hle
    have h2 : (2 : ℚ) ≠ 0 := by norm_num
    have he : e = ((e - lo).toNat : Int) + lo := by omega
    conv_lhs => rw [he, zpow_add₀ h2, zpow_natCast]
    push_cast
    ring
  simp only [F32.lt, decide_eq_true_eq]
  rw [key m1 e1 (min e1 e2) (min_le_left _ _), key m2 e2 (min e1 e2) (min_le_right _ _)]
  have hpos : (0 : ℚ) < (2 : ℚ) ^ (min e1 e2) := zpow_pos (by norm_num) _
  rw [mul_lt_mul_right hpos]
  exact Int.cast_lt.symm

theorem same_add_different_le (board : List Char) (row col rows cols : Int) (type : Char) :
    same_neighbours board row col rows cols type +
      different_neighbours board row col rows cols type ≤ 8 := by
  have h : ∀ r c, (nb board rows cols r c type).1 + (nb board rows cols r c type).2 ≤ 1 := by
    intro r c
    unfold nb
    split_ifs <;> try simp
    split <;> try simp
    split_ifs <;> simp
  rw [same_neighbours_eq, different_neighbours_eq]
  simp only [Prod.fst_add, Prod.snd_add]
  have h1 := h (row - 1) col
  have h2 := h (row - 1) (col - 1)
  have h3 := h (row - 1) (col + 1)
  have h4 := h (row + 1) col
  have h5 := h (row + 1) (col - 1)
  have h6 := h (row + 1) (col + 1)
  have h7 := h row (col - 1)
  have h8 := h row (col + 1)
  omega

theorem amt_same_of_error (s d : Nat) (h0 : 0 < s + d) (h8 : s + d ≤ 8) :
    |F32.toRat (amt_same_of s d) - (s : ℚ) / ((s : ℚ) + (d : ℚ))| ≤ 1 / 2 ^ 25 := by
  have hs : s ≤ 8 := by omega
  have hd : d ≤ 8 := by omega
  interval_cases s <;> interval_cases d <;>
    first
    | omega
    | (simp only [amt_same_of, normShift, F32.toRat]; norm_num [abs_le])

theorem check_placement_some (board : List Char) (row col rows cols : Int) (threshold : F32)
    (type : Char) (hN : rows * cols = (board.length : Int))
    (hr : 0 ≤ row ∧ row < rows) (hc : 0 ≤ col ∧ col < cols) :
    check_placement board row col rows cols threshold type = some 0 ∨
      check_placement board row col rows cols threshold type = some 1 := by
  by_cases ht : type = ' '
  · subst ht; right; exact check_placement_empty board row col rows cols threshold
  · rw [check_placement_eq board row col rows cols threshold type hN hr hc ht]
    split_ifs <;> simp

theorem flat_div (r c C : Nat) (hc : c < C) : ((r * C + c : Nat) : Int) / (C : Int) = (r : Int) := by
  have h : (r * C + c) / C = r := by
    rw [Nat.add_comm, Nat.add_mul_div_right _ _ (by omega), Nat.div_eq_of_lt hc, Nat.zero_add]
  rw [← Int.natCast_div, h]

theorem flat_mod (r c C : Nat) (hc : c < C) : ((r * C + c : Nat) : Int) % (C : Int) = (c : Int) := by
  have h : (r * C + c) % C = c := by
    rw [Nat.add_comm, Nat.add_mul_mod_self_right, Nat.mod_eq_of_lt hc]
  rw [← Int.natCast_mod, h]

theorem flat_lt (r c R C : Nat) (hr : r < R) (hc : c < C) : r * C + c < R * C := by
  have h1 : (r + 1) * C ≤ R * C := Nat.mul_le_mul_right C hr
  have h2 : (r + 1) * C = r * C + C := by ring
  omega

theorem set_append_replicate (pre : List Int) (n : Nat) (v : Int) :
    (pre ++ List.replicate (n + 1) (-1)).set pre.length v = pre ++ [v] ++ List.replicate n (-1) := by
  induction pre with
  | nil => simp [List.replicate_succ]
  | cons a pre ih => simpa using ih

theorem check_agents_cols_spec (board : List Char) (R C : Nat) (thr : F32) (r : Nat)
    (hN : R * C = board.length) (hr : r < R) :
    ∀ (k c : Nat) (pre : List Int) (n : Nat), c + k = C →
      ((List.range' (r * C + c) k).filter (unhappy_at board R C thr)).length ≤ n →
      check_agents_cols board (R : Int) (C : Int) thr (r : Int) k (c : Int)
          (pre ++ List.replicate n (-1), (pre.length : Int)) =
        some (pre ++ ((List.range' (r * C + c) k).filter (unhappy_at board R C thr)).map Int.ofNat
            ++ List.replicate
              (n - ((List.range' (r * C + c) k).filter (unhappy_at board R C thr)).length) (-1),
          ((pre.length + ((List.range' (r * C + c) k).filter
              (unhappy_at board R C thr)).length : Nat) : Int)) := by
  intro k
  induction k with
  | zero => intro c pre n _ _; simp [check_agents_cols]
  | succ k ih =>
    intro c pre n hck hlen
    have hcC : c < C := by omega
    have hi : r * C + c < board.length := by rw [← hN]; exact flat_lt r c R C hr hcC
    have hidx : (r : Int) * (C : Int) + (c : Int) = ((r * C + c : Nat) : Int) := by push_cast; ring
    have hNi : (R : Int) * (C : Int) = (board.length : Int) := by rw [← hN]; push_cast; ring
    have hcp := check_placement_some board (r : Int) (c : Int) (R : Int) (C : Int) thr
      board[r * C + c] hNi ⟨by omega, by omega⟩ ⟨by omega, by omega⟩
    have hun : unhappy_at board R C thr (r * C + c) =
        (board[r * C + c] != ' ' &&
          (check_placement board (r : Int) (c : Int) (R : Int) (C : Int) thr board[r * C + c]
            == some 0)) := by
      simp only [unhappy_at, List.getElem?_eq_getElem hi, flat_div r c C hcC, flat_mod r c C hcC]
    have hnext : r * C + c + 1 = r * C + (c + 1) := by ring
    have hcnext : ((c : Int) + 1) = ((c + 1 : Nat) : Int) := by push_cast; rfl
    rw [check_agents_cols, hidx, rd_natCast, List.getElem?_eq_getElem hi]
    simp only [← hidx]
    rw [List.range'_succ, List.filter_cons] at hlen ⊢
    rcases hcp with h0 | h1
    · have hne : board[r * C + c] ≠ ' ' := by
        intro he
        rw [he, check_placement_empty] at h0
        exact absurd h0 (by decide)
      have hu : unhappy_at board R C thr (r * C + c) = true := by
        rw [hun, h0]; simp [hne]
      rw [hu] at hlen ⊢
      simp only [if_true, List.length_cons] at hlen ⊢
      rw [h0]
      simp only [if_true]
      obtain ⟨n1, rfl⟩ : ∃ n1, n = n1 + 1 := ⟨n - 1, by omega⟩
      rw [wr_natCast, if_pos (by simp), set_append_replicate]
      simp only []
      have hpl : ((pre.length : Int) + 1) = (((pre ++ [((r * C + c : Nat) : Int)]).length : Nat) : Int) := by
        simp
      rw [hidx, hpl, hcnext, hnext, ih (c + 1) (pre ++ [((r * C + c : Nat) : Int)]) n1 (by omega)
        (by rw [← hnext]; omega)]
      simp [hnext, Nat.add_assoc, Nat.add_comm 1]
    · have hu : unhappy_at board R C thr (r * C + c) = false := by
        rw [hun, h1]; simp
      rw [hu] at hlen ⊢
      simp only [Bool.false_eq_true, if_false] at hlen ⊢
      rw [h1]
      simp only [show ¬ ((1 : Int) = 0) by decide, if_false]
      rw [hcnext, hnext, ih (c + 1) pre n (by omega) (by rw [← hnext]; exact hlen)]


theorem check_agents_rows_spec (board : List Char) (R C : Nat) (thr : F32)
    (hN : R * C = board.length) :
    ∀ (k r : Nat) (pre : List Int) (n : Nat), r + k = R →
      ((List.range' (r * C) (k * C)).filter (unhappy_at board R C thr)).length ≤ n →
      check_agents_rows board (R : Int) (C : Int) thr k (r : Int)
          (pre ++ List.replicate n (-1), (pre.length : Int)) =
        some (pre ++ ((List.range' (r * C) (k * C)).filter (unhappy_at board R C thr)).map Int.ofNat
            ++ List.replicate
              (n - ((List.range' (r * C) (k * C)).filter (unhappy_at board R C thr)).length) (-1),
          ((pre.length + ((List.range' (r * C) (k * C)).filter
              (unhappy_at board R C thr)).length : Nat) : Int)) := by
  intro k
  induction k with
  | zero => intro r pre n _ _; simp [check_agents_rows]
  | succ k ih =>
    intro r pre n hrk hlen
    have hsplit : List.range' (r * C) ((k + 1) * C) =
        List.range' (r * C + 0) C ++ List.range' ((r + 1) * C) (k * C) := by
      have h1 : (k + 1) * C = k * C + C := by ring
      have h2 : (r + 1) * C = r * C + C := by ring
      rw [h1, h2, Nat.add_zero, List.range'_append_1]
    rw [hsplit, List.filter_append, List.length_append] at hlen
    have hrow := check_agents_cols_spec board R C thr r hN (by omega) C 0 pre n (by omega)
      (by omega)
    have hrnext : ((r : Int) + 1) = ((r + 1 : Nat) : Int) := by push_cast; rfl
    rw [check_agents_rows, Int.toNat_ofNat]
    have h0 : ((0 : Nat) : Int) = 0 := rfl
    rw [← h0, hrow]
    simp only []
    have hpl : ((pre.length + ((List.range' (r * C + 0) C).filter
        (unhappy_at board R C thr)).length : Nat) : Int) =
        (((pre ++ ((List.range' (r * C + 0) C).filter
          (unhappy_at board R C thr)).map Int.ofNat).length : Nat) : Int) := by simp
    rw [hpl, hrnext, ih (r + 1) _ _ (by omega) (by omega)]
    rw [hsplit, List.filter_append]
    simp [Nat.add_assoc, Nat.sub_sub]

theorem check_agents_spec (board : List Char) (R C : Nat) (thr : F32) (L : Nat)
    (hN : R * C = board.length)
    (hlen : (unhappy_indices board (R : Int) (C : Int) thr).length ≤ L) :
    check_agents board (List.replicate L (-1)) (R : Int) (C : Int) thr =
      some (unhappy_indices board (R : Int) (C : Int) thr ++
        List.replicate (L - (unhappy_indices board (R : Int) (C : Int) thr).length) (-1)) := by
  have hRC : ((R : Int) * (C : Int)).toNat = R * C := by
    rw [← Nat.cast_mul, Int.toNat_ofNat]
  have hU : unhappy_indices board (R : Int) (C : Int) thr =
      ((List.range' (0 * C) (R * C)).filter (unhappy_at board R C thr)).map Int.ofNat := by
    rw [unhappy_indices, hRC, List.range_eq_range', Nat.zero_mul]
  rw [hU, List.length_map] at hlen ⊢
  have h := check_agents_rows_spec board R C thr hN R 0 [] L (by omega) hlen
  rw [check_agents, Int.toNat_ofNat]
  simp only [List.nil_append, List.length_nil] at h
  have h0 : ((0 : Nat) : Int) = 0 := rfl
  rw [← h0, h]
  simp

/-! ## A move keeps the occupants -/

theorem length_movedTo (board : List Char) (p j : Nat) :
    (movedTo board p j).length = board.length := by
  simp [movedTo]

theorem countP_movedTo (q : Char → Bool) (board : List Char) (p j : Nat)
    (hp : p < board.length) (hjp : j ≠ p) (hj : board[j]? = some ' ') :
    (movedTo board p j).countP q = board.countP q := by
  have hjl : j < board.length := by
    by_contra h
    rw [List.getElem?_eq_none (by omega)] at hj
    exact Option.noConfusion hj
  have hje : board[j] = ' ' := by
    rw [List.getElem?_eq_getElem hjl] at hj
    exact Option.some.inj hj
  have hp1 : p < (board.set j (board.getD p ' ')).length := by simpa using hp
  have hget : (board.set j (board.getD p ' '))[p] = board[p] := by
    rw [List.getElem_set_ne hjp]
  have hD : board.getD p ' ' = board[p] := by
    simp [List.getD_eq_getElem?_getD, List.getElem?_eq_getElem hp]
  have hle := List.boole_getElem_le_countP q board j hjl
  rw [movedTo, List.countP_set q _ p ' ' hp1, hget, List.countP_set q board j _ hjl, hje, hD]
  rw [hje] at hle
  split_ifs at hle ⊢ <;> omega

theorem occupied_movedTo (board : List Char) (p j : Nat)
    (hp : p < board.length) (hjp : j ≠ p) (hj : board[j]? = some ' ') :
    occupied (movedTo board p j) = occupied board :=
  countP_movedTo _ board p j hp hjp hj

/-- At a position of the board, `move_placement` returns, either the board
as it is or the board after a move to an open spot. -/
theorem move_placement_cases (board : List Char) (row col rows cols : Int) (p : Nat)
    (hN : rows * cols = (board.length : Int)) (hpos : row * cols + col = (p : Int))
    (hp : p < board.length) :
    move_placement board row col rows cols = some board ∨
      ∃ j, j ≠ p ∧ board[j]? = some ' ' ∧
        move_placement board row col rows cols = some (movedTo board p j) := by
  classical
  by_cases hafter : ∃ j, p < j ∧ board[j]? = some ' '
  · right
    refine ⟨Nat.find hafter, ?_, (Nat.find_spec hafter).2, ?_⟩
    · have := (Nat.find_spec hafter).1; omega
    · exact move_placement_after board row col rows cols p _ hN hpos (Nat.find_spec hafter).1
        (Nat.find_spec hafter).2 (fun i hi1 hi2 hi3 => Nat.find_min hafter hi2 ⟨hi1, hi3⟩)
  · have hafter1 : ∀ i, p < i → board[i]? ≠ some ' ' := fun i hi h => hafter ⟨i, hi, h⟩
    by_cases hbefore : ∃ j, j < p ∧ board[j]? = some ' '
    · right
      refine ⟨Nat.find hbefore, ?_, (Nat.find_spec hbefore).2, ?_⟩
      · have := (Nat.find_spec hbefore).1; omega
      · exact move_placement_before board row col rows cols p _ hN hpos hp hafter1
          (Nat.find_spec hbefore).1 (Nat.find_spec hbefore).2
          (fun i hi1 hi2 => Nat.find_min hbefore hi1
            ⟨lt_trans hi1 (Nat.find_spec hbefore).1, hi2⟩)
    · left
      refine move_placement_none board row col rows cols p hN hpos hp ?_
      intro i hi h
      rcases Nat.lt_or_gt_of_ne hi with h1 | h1
      · exact hbefore ⟨i, h1, h⟩
      · exact hafter ⟨i, h1, h⟩

theorem move_placement_occupied (board : List Char) (row col rows cols : Int) (p : Nat)
    (hN : rows * cols = (board.length : Int)) (hpos : row * cols + col = (p : Int))
    (hp : p < board.length) :
    ∃ b, move_placement board row col rows cols = some b ∧ b.length = board.length ∧
      occupied b = occupied board := by
  rcases move_placement_cases board row col rows cols p hN hpos hp with h | ⟨j, hjp, hj, h⟩
  · exact ⟨board, h, rfl, rfl⟩
  · exact ⟨_, h, length_movedTo board p j, occupied_movedTo board p j hp hjp hj⟩

/-! ## The unhappy indices -/

theorem countP_range_getElem? (q : Char → Bool) (l : List Char) :
    (List.range l.length).countP
      (fun i => match l[i]? with
        | some a => q a
        | none => false) = l.countP q := by
  induction l using List.reverseRecOn with
  | nil => simp
  | append_singleton l a ih =>
    rw [List.length_append, List.length_singleton, List.range_succ, List.countP_append,
      List.countP_append]
    congr 1
    · rw [← ih]
      apply List.countP_congr
      intro i hi
      rw [List.mem_range] at hi
      rw [List.getElem?_append_left hi]
    · have hlast : (l ++ [a])[l.length]? = some a := by
        rw [List.getElem?_append_right (Nat.le_refl _)]; simp
      rw [List.countP_cons, List.countP_cons, List.countP_nil, List.countP_nil, hlast]

theorem unhappy_at_nonempty (board : List Char) (rows cols : Int) (thr : F32) (i : Nat)
    (h : unhappy_at board rows cols thr i = true) :
    ∃ ch, board[i]? = some ch ∧ ch ≠ ' ' ∧
      check_placement board ((i : Int) / cols) ((i : Int) % cols) rows cols thr ch = some 0 := by
  unfold unhappy_at at h
  cases hb : board[i]? with
  | none => rw [hb] at h; simp at h
  | some ch =>
    rw [hb] at h
    simp only [Bool.and_eq_true, bne_iff_ne, ne_eq, beq_iff_eq] at h
    exact ⟨ch, rfl, h.1, h.2⟩

theorem unhappy_indices_length_le (board : List Char) (rows cols : Int) (thr : F32)
    (hN : rows * cols = (board.length : Int)) :
    (unhappy_indices board rows cols thr).length ≤ occupied board := by
  have hl : (rows * cols).toNat = board.length := by omega
  rw [unhappy_indices, List.length_map, hl, ← List.countP_eq_length_filter, occupied,
    ← countP_range_getElem? _ board]
  apply List.countP_mono_left
  intro i _ hi
  obtain ⟨ch, hb, hne, _⟩ := unhappy_at_nonempty board rows cols thr i hi
  rw [hb]
  simp [hne]

theorem mem_unhappy_indices (board : List Char) (rows cols : Int) (thr : F32) (v : Int) :
    v ∈ unhappy_indices board rows cols thr ↔
      ∃ i : Nat, v = (i : Int) ∧ i < (rows * cols).toNat ∧
        unhappy_at board rows cols thr i = true := by
  simp only [unhappy_indices, List.mem_map, List.mem_filter, List.mem_range]
  constructor
  · rintro ⟨i, ⟨h1, h2⟩, rfl⟩; exact ⟨i, rfl, h1, h2⟩
  · rintro ⟨i, rfl, h1, h2⟩; exact ⟨i, ⟨h1, h2⟩, rfl⟩

theorem unhappy_indices_pairwise (board : List Char) (rows cols : Int) (thr : F32) :
    (unhappy_indices board rows cols thr).Pairwise (· < ·) := by
  unfold unhappy_indices
  apply List.Pairwise.map (R := (· < ·))
  · intro a b hab; exact Int.ofNat_lt.mpr hab
  · exact List.Pairwise.filter _ (List.pairwise_lt_range _)

/-! ## The buffer of unhappy spots -/

theorem set_length_append (pre : List Int) (a : Int) (rest : List Int) (v : Int) :
    (pre ++ a :: rest).set pre.length v = pre ++ v :: rest := by
  induction pre with
  | nil => simp
  | cons b pre ih => simp

theorem fill_placeholders_append :
    ∀ (k : Nat) (pre rest : List Int), rest.length = k →
      fill_placeholders k (pre.length : Int) (pre ++ rest) =
        some (pre ++ List.replicate k (-1)) := by
  intro k
  induction k with
  | zero =>
    intro pre rest h
    have : rest = [] := List.length_eq_zero.mp h
    simp [fill_placeholders, this]
  | succ k ih =>
    intro pre rest h
    obtain ⟨a, rest1, rfl⟩ : ∃ a rest1, rest = a :: rest1 := by
      cases rest with
      | nil => simp at h
      | cons a rest1 => exact ⟨a, rest1, rfl⟩
    have hl : ((pre.length : Int) + 1) = (((pre ++ [(-1 : Int)]).length : Nat) : Int) := by simp
    have hr : pre ++ (-1 : Int) :: rest1 = (pre ++ [(-1 : Int)]) ++ rest1 := by simp
    rw [fill_placeholders, wr_natCast, if_pos (by simp), set_length_append]
    simp only []
    rw [hl, hr, ih (pre ++ [(-1 : Int)]) rest1 (by simpa using h)]
    simp [List.replicate_succ]

theorem fill_placeholders_eq (spots : List Int) :
    fill_placeholders spots.length 0 spots = some (List.replicate spots.length (-1)) := by
  have h := fill_placeholders_append spots.length [] spots rfl
  simpa using h

theorem unhappy_boolean_loop_zero (spots : List Int) :
    ∀ (k i : Nat), i + k ≤ spots.length →
      (∀ t, i ≤ t → t < i + k → spots[t]? = some (-1)) →
      unhappy_boolean_loop spots k (i : Int) = some 0 := by
  intro k
  induction k with
  | zero => intro i _ _; rfl
  | succ k ih =>
    intro i hlen h
    have hc : ((i : Int) + 1) = ((i + 1 : Nat) : Int) := by push_cast; rfl
    rw [unhappy_boolean_loop, rd_natCast, h i (by omega) (by omega)]
    simp only [ne_eq, not_true_eq_false, if_false]
    rw [hc]
    exact ih (i + 1) (by omega) (fun t h1 h2 => h t (by omega) (by omega))

theorem unhappy_boolean_scanned (board : List Char) (rows cols : Int) (thr : F32) (L : Nat)
    (hL : (unhappy_indices board rows cols thr).length ≤ L) :
    unhappy_boolean (scanned board rows cols thr L) (L : Int) =
      some (if unhappy_indices board rows cols thr = [] then 0 else 1) := by
  have h0 : ((0 : Nat) : Int) = 0 := rfl
  rw [unhappy_boolean, Int.toNat_ofNat, ← h0]
  cases hU : unhappy_indices board rows cols thr with
  | nil =>
    rw [if_pos rfl]
    apply unhappy_boolean_loop_zero
    · simp [scanned, hU]
    · intro t _ ht
      simp only [scanned, hU, List.nil_append, List.length_nil, Nat.sub_zero]
      rw [List.getElem?_replicate]
      simp only [Nat.zero_add] at ht
      simp [ht]
  | cons u rest =>
    rw [if_neg (by simp)]
    have hu : u ∈ unhappy_indices board rows cols thr := by rw [hU]; simp
    obtain ⟨i, rfl, _, _⟩ := (mem_unhappy_indices board rows cols thr u).mp hu
    obtain ⟨L1, rfl⟩ : ∃ L1, L = L1 + 1 := ⟨L - 1, by rw [hU] at hL; simp at hL; omega⟩
    rw [unhappy_boolean_loop, rd_natCast]
    simp only [scanned, hU, List.cons_append, List.getElem?_cons_zero]
    rw [if_pos (by omega)]

theorem scanned_length (board : List Char) (rows cols : Int) (thr : F32) (L : Nat)
    (hL : (unhappy_indices board rows cols thr).length ≤ L) :
    (scanned board rows cols thr L).length = L := by
  simp [scanned]; omega

theorem scanned_entries (board : List Char) (rows cols : Int) (thr : F32) (L : Nat) (v : Int)
    (hv : v ∈ scanned board rows cols thr L) :
    v = -1 ∨ (0 ≤ v ∧ v < ((rows * cols).toNat : Int)) := by
  rw [scanned, List.mem_append] at hv
  rcases hv with h | h
  · right
    obtain ⟨i, rfl, hi, _⟩ := (mem_unhappy_indices board rows cols thr v).mp h
    omega
  · left; exact (List.mem_replicate.mp h).2


/-! ## One round -/

theorem round_loop_spec (R C : Nat) (P : List Char → Prop)
    (hP : ∀ (b : List Char) (p j : Nat), b.length = R * C → p < b.length → j ≠ p →
      b[j]? = some ' ' → P b → P (movedTo b p j)) :
    ∀ (k i : Nat) (s : Sim), i + k = s.unhappy_spots.length →
      (∀ v ∈ s.unhappy_spots, v = -1 ∨ (0 ≤ v ∧ v < ((R * C : Nat) : Int))) →
      s.board.length = R * C → P s.board → 0 < s.num_iterations →
      ∃ s1, (round_loop (R : Int) (C : Int) k (i : Int) s = .exit s1 ∧ s1.num_iterations = 0 ∨
          round_loop (R : Int) (C : Int) k (i : Int) s = .next s1 ∧ 0 < s1.num_iterations) ∧
        s1.board.length = R * C ∧ P s1.board ∧ s1.unhappy_spots = s.unhappy_spots ∧
        s1.num_iterations + (s1.moves : Int) = s.num_iterations + (s.moves : Int) ∧
        s.moves ≤ s1.moves ∧
        ((∃ t v, i ≤ t ∧ s.unhappy_spots[t]? = some v ∧ v ≠ -1) → s.moves < s1.moves) := by
  intro k
  induction k with
  | zero =>
    intro i s hik _ hlen hPs hn
    refine ⟨s, Or.inr ⟨rfl, hn⟩, hlen, hPs, rfl, rfl, le_refl _, ?_⟩
    rintro ⟨t, v, hit, htv, _⟩
    have : t < s.unhappy_spots.length := by
      by_contra h
      rw [List.getElem?_eq_none (by omega)] at htv
      exact Option.noConfusion htv
    omega
  | succ k ih =>
    intro i s hik hval hlen hPs hn
    have hi : i < s.unhappy_spots.length := by omega
    have hc : ((i : Int) + 1) = ((i + 1 : Nat) : Int) := by push_cast; rfl
    rw [round_loop, rd_natCast, List.getElem?_eq_getElem hi]
    simp only []
    by_cases hv : s.unhappy_spots[i] = -1
    · rw [if_neg (by simpa using hv), hc]
      obtain ⟨s1, h1, h2, h3, h4, h5, h6, h7⟩ := ih (i + 1) s (by omega) hval hlen hPs hn
      refine ⟨s1, h1, h2, h3, h4, h5, h6, ?_⟩
      rintro ⟨t, v, hit, htv, hne⟩
      apply h7
      refine ⟨t, v, ?_, htv, hne⟩
      by_contra hlt
      have hti : t = i := by omega
      subst hti
      rw [List.getElem?_eq_getElem hi] at htv
      exact hne (by rw [← Option.some.inj htv]; exact hv)
    · rw [if_pos hv]
      have hmem : s.unhappy_spots[i] ∈ s.unhappy_spots := List.getElem_mem _
      rcases hval _ hmem with h | ⟨hv0, hvN⟩
      · exact absurd h hv
      · obtain ⟨p, hp⟩ : ∃ p : Nat, s.unhappy_spots[i] = (p : Int) :=
          ⟨(s.unhappy_spots[i]).toNat, by omega⟩
        have hpos : Int.tdiv (s.unhappy_spots[i]) (C : Int) * (C : Int) +
            Int.tmod (s.unhappy_spots[i]) (C : Int) = (p : Int) := by
          rw [Int.tdiv_add_tmod']; exact hp
        have hNi : (R : Int) * (C : Int) = (s.board.length : Int) := by
          rw [hlen]; push_cast; ring
        have hpl : p < s.board.length := by rw [hlen]; omega
        rcases move_placement_cases s.board _ _ (R : Int) (C : Int) p hNi hpos hpl with
          hm | ⟨j, hjp, hj, hm⟩
        · rw [hm]
          simp only []
          by_cases hz : s.num_iterations - 1 = 0
          · rw [if_pos hz]
            exact ⟨_, Or.inl ⟨rfl, hz⟩, hlen, hPs, rfl, by simp, by simp,
              fun _ => by simp⟩
          · rw [if_neg hz, hc]
            obtain ⟨s1, h1, h2, h3, h4, h5, h6, _⟩ := ih (i + 1)
              { s with board := s.board, num_iterations := s.num_iterations - 1,
                       moves := s.moves + 1 }
              (by simpa using (by omega : i + 1 + k = s.unhappy_spots.length)) hval hlen hPs
              (by simp; omega)
            refine ⟨s1, h1, h2, h3, h4, ?_, ?_, fun _ => ?_⟩
            · simp at h5; omega
            · simp at h6; omega
            · simp at h6; omega
        · rw [hm]
          simp only []
          have hlen1 : (movedTo s.board p j).length = R * C := by
            rw [length_movedTo]; exact hlen
          have hP1 : P (movedTo s.board p j) := hP s.board p j hlen hpl hjp hj hPs
          by_cases hz : s.num_iterations - 1 = 0
          · rw [if_pos hz]
            exact ⟨_, Or.inl ⟨rfl, hz⟩, hlen1, hP1, rfl, by simp, by simp,
              fun _ => by simp⟩
          · rw [if_neg hz, hc]
            obtain ⟨s1, h1, h2, h3, h4, h5, h6, _⟩ := ih (i + 1)
              { s with board := movedTo s.board p j, num_iterations := s.num_iterations - 1,
                       moves := s.moves + 1 }
              (by simpa using (by omega : i + 1 + k = s.unhappy_spots.length)) hval hlen1 hP1
              (by simp; omega)
            refine ⟨s1, h1, h2, h3, h4, ?_, ?_, fun _ => ?_⟩
            · simp at h5; omega
            · simp at h6; omega
            · simp at h6; omega


/-! ## The rounds -/

theorem while_loop_spec (R C L : Nat) (thr : F32) (P : List Char → Prop)
    (hP : ∀ (b : List Char) (p j : Nat), b.length = R * C → p < b.length → j ≠ p →
      b[j]? = some ' ' → P b → P (movedTo b p j))
    (hU : ∀ b : List Char, b.length = R * C → P b →
      (unhappy_indices b (R : Int) (C : Int) thr).length ≤ L) :
    ∀ (fuel : Nat) (s : Sim), s.num_iterations.toNat ≤ fuel →
      s.board.length = R * C → P s.board →
      s.unhappy_spots = scanned s.board (R : Int) (C : Int) thr L →
      ∃ s1, (while_loop (R : Int) (C : Int) thr (L : Int) fuel s = .exit s1 ∧
            s1.num_iterations = 0 ∨
          while_loop (R : Int) (C : Int) thr (L : Int) fuel s = .next s1 ∧
            s1.unhappy_spots = scanned s1.board (R : Int) (C : Int) thr L ∧
            (s1.num_iterations ≤ 0 ∨ unhappy_indices s1.board (R : Int) (C : Int) thr = [])) ∧
        s1.board.length = R * C ∧ P s1.board ∧
        s1.num_iterations + (s1.moves : Int) = s.num_iterations + (s.moves : Int) ∧
        s.moves ≤ s1.moves ∧ (0 ≤ s.num_iterations → 0 ≤ s1.num_iterations) ∧
        ((s.num_iterations ≤ 0 ∨ unhappy_indices s.board (R : Int) (C : Int) thr = []) →
          s1 = s) := by
  intro fuel
  induction fuel with
  | zero =>
    intro s hfuel hlen hPs hsp
    have hn : s.num_iterations ≤ 0 := by omega
    refine ⟨s, Or.inr ⟨?_, hsp, Or.inl hn⟩, hlen, hPs, rfl, le_refl _, fun h => h, fun _ => rfl⟩
    rw [while_loop, hsp, unhappy_boolean_scanned s.board _ _ thr L (hU s.board hlen hPs)]
    simp only []
    rw [if_neg (by omega)]
  | succ fuel ih =>
    intro s hfuel hlen hPs hsp
    have hUs := hU s.board hlen hPs
    by_cases hstop : s.num_iterations ≤ 0 ∨ unhappy_indices s.board (R : Int) (C : Int) thr = []
    · refine ⟨s, Or.inr ⟨?_, hsp, hstop⟩, hlen, hPs, rfl, le_refl _, fun h => h, fun _ => rfl⟩
      rw [while_loop, hsp, unhappy_boolean_scanned s.board _ _ thr L hUs]
      simp only []
      rcases hstop with h | h
      · rw [if_neg (by omega)]
      · rw [if_pos h, if_neg (by omega)]
    · have hn : 0 < s.num_iterations := by
        by_contra h; exact hstop (Or.inl (by omega))
      have hne : unhappy_indices s.board (R : Int) (C : Int) thr ≠ [] :=
        fun h => hstop (Or.inr h)
      have hspl : s.unhappy_spots.length = L := by
        rw [hsp]; exact scanned_length s.board _ _ thr L hUs
      have hRC : ((R : Int) * (C : Int)).toNat = R * C := by
        rw [← Nat.cast_mul, Int.toNat_ofNat]
      have hval : ∀ v ∈ s.unhappy_spots, v = -1 ∨ (0 ≤ v ∧ v < ((R * C : Nat) : Int)) := by
        intro v hv
        rw [hsp] at hv
        have := scanned_entries s.board _ _ thr L v hv
        rw [hRC] at this
        exact this
      have hfirst : ∃ t v, 0 ≤ t ∧ s.unhappy_spots[t]? = some v ∧ v ≠ -1 := by
        obtain ⟨u, rest, hu⟩ : ∃ u rest, unhappy_indices s.board (R : Int) (C : Int) thr
            = u :: rest := by
          cases hh : unhappy_indices s.board (R : Int) (C : Int) thr with
          | nil => exact absurd hh hne
          | cons u rest => exact ⟨u, rest, rfl⟩
        have humem : u ∈ unhappy_indices s.board (R : Int) (C : Int) thr := by rw [hu]; simp
        obtain ⟨i, rfl, _, _⟩ := (mem_unhappy_indices s.board _ _ thr u).mp humem
        refine ⟨0, (i : Int), le_refl _, ?_, by omega⟩
        rw [hsp, scanned, hu]; simp
      obtain ⟨s1, hres, hlen1, hP1, hsp1, hbud, hmv, hstrict⟩ :=
        round_loop_spec R C P hP L 0 s (by omega) hval hlen hPs hn
      have hlt := hstrict hfirst
      have h0 : ((0 : Nat) : Int) = 0 := rfl
      rw [while_loop, hsp, unhappy_boolean_scanned s.board _ _ thr L hUs]
      simp only []
      rw [if_neg hne, if_pos ⟨rfl, hn⟩, Int.toNat_ofNat, ← h0]
      rcases hres with ⟨hr, hz⟩ | ⟨hr, hpos⟩
      · rw [hr]
        exact ⟨s1, Or.inl ⟨rfl, hz⟩, hlen1, hP1, hbud, hmv, fun _ => by omega,
          fun h => absurd h hstop⟩
      · rw [hr]
        simp only []
        have hU1 := hU s1.board hlen1 hP1
        have hfill : fill_placeholders L 0 s1.unhappy_spots = some (List.replicate L (-1)) := by
          have := fill_placeholders_eq s1.unhappy_spots
          rw [hsp1, hspl] at this
          rw [hsp1]; exact this
        rw [h0, hfill]
        simp only []
        rw [check_agents_spec s1.board R C thr L hlen1.symm hU1]
        simp only []
        obtain ⟨s2, hres2, hlen2, hP2, hbud2, hmv2, hnn2, _⟩ := ih
          { s1 with unhappy_spots := unhappy_indices s1.board (R : Int) (C : Int) thr ++
              List.replicate (L - (unhappy_indices s1.board (R : Int) (C : Int) thr).length) (-1) }
          (by simp; omega) hlen1 hP1 rfl
        refine ⟨s2, hres2, hlen2, hP2, ?_, ?_, fun _ => ?_, fun h => absurd h hstop⟩
        · simp at hbud2; omega
        · simp at hmv2; omega
        · exact hnn2 (by simp; omega)

theorem simulate_eq (board : List Char) (R C L : Nat) (thr : F32) (n : Int)
    (hN : R * C = board.length)
    (hU : (unhappy_indices board (R : Int) (C : Int) thr).length ≤ L) :
    simulate board (R : Int) (C : Int) n thr (L : Int) =
      while_loop (R : Int) (C : Int) thr (L : Int) n.toNat
        { board := board, unhappy_spots := scanned board (R : Int) (C : Int) thr L,
          num_iterations := n, moves := 0 } := by
  have hfill := fill_placeholders_eq (List.replicate L (0 : Int))
  rw [List.length_replicate] at hfill
  rw [simulate, Int.toNat_ofNat, hfill]
  simp only []
  rw [check_agents_spec board R C thr L hN hU]
  rfl

/-! ## The whole simulation -/

/-- The simulation on a board of `rows * cols` cells whose occupants fit the
buffer: it ends, by the `return` inside a round with the budget at `0` or
by leaving the `while` loop, and every property `P` that a move keeps holds
of the final board. -/
theorem simulate_spec (board : List Char) (rows cols : Int) (n : Int) (thr : F32)
    (num_chars : Int) (hrows : 0 ≤ rows) (hcols : 0 ≤ cols)
    (hN : (board.length : Int) = rows * cols) (hocc : (occupied board : Int) ≤ num_chars)
    (P : List Char → Prop) (hP0 : P board)
    (hP : ∀ (b : List Char) (p j : Nat), b.length = board.length → p < b.length → j ≠ p →
      b[j]? = some ' ' → P b → P (movedTo b p j)) :
    ∃ s, (simulate board rows cols n thr num_chars = .exit s ∧ s.num_iterations = 0 ∨
          simulate board rows cols n thr num_chars = .next s ∧
            s.unhappy_spots = scanned s.board rows cols thr num_chars.toNat ∧
            (s.num_iterations ≤ 0 ∨ unhappy_indices s.board rows cols thr = [])) ∧
      s.board.length = board.length ∧ P s.board ∧ occupied s.board = occupied board ∧
      s.num_iterations + (s.moves : Int) = n ∧ (0 ≤ n → 0 ≤ s.num_iterations) ∧
      ((n ≤ 0 ∨ unhappy_indices board rows cols thr = []) →
        s = { board := board, unhappy_spots := scanned board rows cols thr num_chars.toNat,
              num_iterations := n, moves := 0 }) := by
  obtain ⟨R, rfl⟩ := Int.eq_ofNat_of_zero_le hrows
  obtain ⟨C, rfl⟩ := Int.eq_ofNat_of_zero_le hcols
  obtain ⟨L, rfl⟩ := Int.eq_ofNat_of_zero_le (le_trans (Int.ofNat_nonneg _) hocc)
  have hN1 : R * C = board.length := by
    have : ((R * C : Nat) : Int) = (board.length : Int) := by push_cast; exact hN.symm
    exact_mod_cast this
  have hNi : ∀ b : List Char, b.length = R * C → (R : Int) * (C : Int) = (b.length : Int) := by
    intro b hb; rw [hb]; push_cast; ring
  have hU : ∀ b : List Char, b.length = R * C → (P b ∧ occupied b = occupied board) →
      (unhappy_indices b (R : Int) (C : Int) thr).length ≤ L := by
    intro b hb hPb
    have h1 := unhappy_indices_length_le b (R : Int) (C : Int) thr (hNi b hb)
    have h2 : occupied board ≤ L := by exact_mod_cast hocc
    omega
  have hP1 : ∀ (b : List Char) (p j : Nat), b.length = R * C → p < b.length → j ≠ p →
      b[j]? = some ' ' → (P b ∧ occupied b = occupied board) →
      (P (movedTo b p j) ∧ occupied (movedTo b p j) = occupied board) := by
    intro b p j hb hp hjp hj hPb
    exact ⟨hP b p j (by rw [hb, hN1]) hp hjp hj hPb.1,
      by rw [occupied_movedTo b p j hp hjp hj]; exact hPb.2⟩
  rw [simulate_eq board R C L thr n hN1 (hU board hN1.symm ⟨hP0, rfl⟩)]
  obtain ⟨s, hres, hlen, hPs, hbud, _, hnn, hstop⟩ :=
    while_loop_spec R C L thr (fun b => P b ∧ occupied b = occupied board) hP1 hU n.toNat
      { board := board, unhappy_spots := scanned board (R : Int) (C : Int) thr L,
        num_iterations := n, moves := 0 } (le_refl _) hN1.symm ⟨hP0, rfl⟩ rfl
  refine ⟨s, ?_, by rw [hlen, hN1], hPs.1, hPs.2, by simpa using hbud, hnn, hstop⟩
  simpa using hres

/-! ## The claims of the specification -/

/-- C1 (conservation). On a board of `rows * cols` cells, `move_placement`
at an occupied position inside the grid returns a board with as many
non-empty cells as before; and the simulation loop of `main`, whose buffer has
`num_chars = num_d + num_p` entries, no fewer than the occupants `main`
placed, ends with a board that has as many non-empty cells as the initial
one, whatever the threshold and the budget. -/
theorem C1_conservation (board : List Char) (rows cols : Int)
    (hrows : 1 ≤ rows) (hcols : 1 ≤ cols) (hN : (board.length : Int) = rows * cols) :
    (∀ row col : Int, 0 ≤ row → row < rows → 0 ≤ col → col < cols →
      rd board (row * cols + col) ≠ some ' ' →
      ∃ b, move_placement board row col rows cols = some b ∧ occupied b = occupied board) ∧
    (∀ (threshold : F32) (num_iterations num_chars : Int),
      (occupied board : Int) ≤ num_chars →
      ∃ s, (simulate board rows cols num_iterations threshold num_chars).final = some s ∧
        occupied s.board = occupied board) := by
  constructor
  · intro row col hr0 hr hc0 hc _
    obtain ⟨h0, h1⟩ := flat_bounds rows cols row col hr0 hr hc0 hc
    obtain ⟨b, hb, _, hocc⟩ := move_placement_occupied board row col rows cols
      (row * cols + col).toNat hN.symm (by omega) (by omega)
    exact ⟨b, hb, hocc⟩
  · intro threshold num_iterations num_chars hocc
    obtain ⟨s, hres, _, _, hs, _⟩ := simulate_spec board rows cols num_iterations threshold
      num_chars (by omega) (by omega) hN hocc (fun _ => True) trivial
      (fun _ _ _ _ _ _ _ _ => trivial)
    refine ⟨s, ?_, hs⟩
    rcases hres with ⟨h, _⟩ | ⟨h, _⟩ <;> rw [h] <;> rfl

/-- A run of C1 on the 1x3 board `$. `: the move of the agent at `(0, 0)` and
the simulation with threshold `1.0`, budget `10` and a buffer of `2` entries
both keep the two occupants. -/
theorem C1_conservation_witness :
    (∃ b, move_placement ['$', '.', ' '] 0 0 1 3 = some b ∧
      occupied b = occupied ['$', '.', ' ']) ∧
    (∃ s, (simulate ['$', '.', ' '] 1 3 10 (.fin 1 0) 2).final = some s ∧
      occupied s.board = occupied ['$', '.', ' ']) :=
  ⟨(C1_conservation ['$', '.', ' '] 1 3 (by decide) (by decide) (by decide)).1 0 0
      (by decide) (by decide) (by decide) (by decide) (by decide),
    (C1_conservation ['$', '.', ' '] 1 3 (by decide) (by decide) (by decide)).2 (.fin 1 0) 10 2
      (by decide)⟩

/-- C2, as the specification states it, fails: on the 1x3 board `$. ` with
threshold `1.0`, budget `10` and the two-entry buffer of `main`, the
simulation does not end with the board ` .$` and a budget of `9`. -/
theorem C2_scenario_counterexample :
    ¬ ∃ s, (simulate ['$', '.', ' '] 1 3 10 (.fin 1 0) 2).final = some s ∧
      s.board = [' ', '.', '$'] ∧ s.num_iterations = 9 ∧ s.moves = 1 := by
  decide

/-- C2, amended. On the 1x3 board `$. ` with threshold `1.0` and budget `10`
the first scan finds both agents unhappy (indices `0` and `1`); the round moves
`$` to index `2`, giving ` .$`, and then `.` to index `0`, giving `. $`; the
next scan finds no unhappy agent, and the loop ends there, after `2` moves,
with a budget of `8`. -/
theorem C2_scenario :
    check_agents ['$', '.', ' '] [-1, -1] 1 3 (.fin 1 0) = some [0, 1] ∧
    move_placement ['$', '.', ' '] 0 0 1 3 = some [' ', '.', '$'] ∧
    move_placement [' ', '.', '$'] 0 1 1 3 = some ['.', ' ', '$'] ∧
    check_agents ['.', ' ', '$'] [-1, -1] 1 3 (.fin 1 0) = some [-1, -1] ∧
    simulate ['$', '.', ' '] 1 3 10 (.fin 1 0) 2 =
      .next { board := ['.', ' ', '$'], unhappy_spots := [-1, -1],
              num_iterations := 8, moves := 2 } := by
  decide

theorem amt_same_of_fin (s d : Nat) (h : 0 < s + d) :
    ∃ m e, amt_same_of s d = .fin m e := by
  unfold amt_same_of
  simp only []
  rw [if_neg (by omega)]
  split_ifs
  · exact ⟨_, _, rfl⟩
  · exact ⟨_, _, rfl⟩
  · exact ⟨_, _, rfl⟩

theorem neighbours_where_eq_zero (board : List Char) (row col rows cols : Int)
    (pred : Char → Bool)
    (hiso : ∀ d ∈ moore_offsets,
      ¬ (0 ≤ row + d.1 ∧ row + d.1 < rows ∧ 0 ≤ col + d.2 ∧ col + d.2 < cols) ∨
        rd board ((row + d.1) * cols + (col + d.2)) = some ' ') :
    neighbours_where board row col rows cols pred = 0 := by
  rw [neighbours_where, List.countP_eq_zero]
  intro d hd
  rcases hiso d hd with h | h
  · simp [h]
  · simp [h]

/-- C3, as the specification states it with the exact ratio, fails. On the
2x2 board `$$` / `..` the agent at `(0, 0)` has `1` neighbour of its type
and `2` of the other. For the threshold `11184811 * 2^-25` (the float that
`0.33333334` reads as, and the float that `1.0f/3.0f` rounds to) the exact
ratio `1/3` is below the threshold, yet `check_placement` returns `1`. -/
theorem C3_exact_ratio_counterexample :
    IsBinary32 (F32.toRat (.fin 11184811 (-25))) ∧
    same_neighbours ['$', '$', '.', '.'] 0 0 2 2 '$' = 1 ∧
    different_neighbours ['$', '$', '.', '.'] 0 0 2 2 '$' = 2 ∧
    check_placement ['$', '$', '.', '.'] 0 0 2 2 (.fin 11184811 (-25)) '$' = some 1 ∧
    ¬ (check_placement ['$', '$', '.', '.'] 0 0 2 2 (.fin 11184811 (-25)) '$' = some 1 ↔
      (same_neighbours ['$', '$', '.', '.'] 0 0 2 2 '$' : ℚ) /
        ((same_neighbours ['$', '$', '.', '.'] 0 0 2 2 '$' : ℚ) +
          (different_neighbours ['$', '$', '.', '.'] 0 0 2 2 '$' : ℚ))
        ≥ F32.toRat (.fin 11184811 (-25))) ∧
    ¬ (check_placement ['$', '$', '.', '.'] 0 0 2 2 (.fin 11184811 (-25)) '$' = some 0 ↔
      (same_neighbours ['$', '$', '.', '.'] 0 0 2 2 '$' : ℚ) /
        ((same_neighbours ['$', '$', '.', '.'] 0 0 2 2 '$' : ℚ) +
          (different_neighbours ['$', '$', '.', '.'] 0 0 2 2 '$' : ℚ))
        < F32.toRat (.fin 11184811 (-25))) := by
  have hs : same_neighbours ['$', '$', '.', '.'] 0 0 2 2 '$' = 1 := by decide
  have hd : different_neighbours ['$', '$', '.', '.'] 0 0 2 2 '$' = 2 := by decide
  have hcp : check_placement ['$', '$', '.', '.'] 0 0 2 2 (.fin 11184811 (-25)) '$' = some 1 := by
    decide
  have hlt : ((1 : ℕ) : ℚ) / (((1 : ℕ) : ℚ) + ((2 : ℕ) : ℚ)) < F32.toRat (.fin 11184811 (-25)) := by
    simp only [F32.toRat]
    norm_num
  refine ⟨⟨11184811, -25, by norm_num, by norm_num, by norm_num, rfl⟩, hs, hd, hcp, ?_, ?_⟩
  · rw [hs, hd]
    intro h
    exact absurd (h.mp hcp) (not_le.mpr hlt)
  · rw [hs, hd, hcp]
    intro h
    exact absurd (h.mpr hlt) (by decide)

/-- C3, amended. For a cell inside the grid whose character `type` is not
the blank, with `same + different > 0` non-empty neighbours, and a finite
threshold,
`check_placement` returns `1` iff the single-precision quotient
`fl(same / (same + different))` is at least the threshold and `0` iff it is
below it. The quotient is within `2^-25` of the exact ratio, so the same holds
of the exact ratio for every threshold that does not lie between the two. An
agent with `2` neighbours of each kind is happy at `0.5` and unhappy at the
float `8556380 * 2^-24` that `0.51` reads as. -/
theorem C3_happiness (board : List Char) (row col rows cols : Int) (type : Char) (m e : Int)
    (hN : (board.length : Int) = rows * cols)
    (hr : 0 ≤ row ∧ row < rows) (hc : 0 ≤ col ∧ col < cols) (htype : type ≠ ' ')
    (hpos : 0 < same_neighbours board row col rows cols type +
      different_neighbours board row col rows cols type) :
    (check_placement board row col rows cols (.fin m e) type = some 1 ↔
      F32.toRat (.fin m e) ≤ F32.toRat (amt_same_of (same_neighbours board row col rows cols type)
        (different_neighbours board row col rows cols type))) ∧
    (check_placement board row col rows cols (.fin m e) type = some 0 ↔
      F32.toRat (amt_same_of (same_neighbours board row col rows cols type)
        (different_neighbours board row col rows cols type)) < F32.toRat (.fin m e)) ∧
    |F32.toRat (amt_same_of (same_neighbours board row col rows cols type)
        (different_neighbours board row col rows cols type)) -
      (same_neighbours board row col rows cols type : ℚ) /
        ((same_neighbours board row col rows cols type : ℚ) +
          (different_neighbours board row col rows cols type : ℚ))| ≤ 1 / 2 ^ 25 ∧
    ((F32.toRat (amt_same_of (same_neighbours board row col rows cols type)
          (different_neighbours board row col rows cols type)) < F32.toRat (.fin m e) ↔
        (same_neighbours board row col rows cols type : ℚ) /
          ((same_neighbours board row col rows cols type : ℚ) +
            (different_neighbours board row col rows cols type : ℚ)) < F32.toRat (.fin m e)) →
      (check_placement board row col rows cols (.fin m e) type = some 1 ↔
        (same_neighbours board row col rows cols type : ℚ) /
          ((same_neighbours board row col rows cols type : ℚ) +
            (different_neighbours board row col rows cols type : ℚ)) ≥ F32.toRat (.fin m e)) ∧
      (check_placement board row col rows cols (.fin m e) type = some 0 ↔
        (same_neighbours board row col rows cols type : ℚ) /
          ((same_neighbours board row col rows cols type : ℚ) +
            (different_neighbours board row col rows cols type : ℚ)) < F32.toRat (.fin m e))) ∧
    (same_neighbours board row col rows cols type = 2 →
      different_neighbours board row col rows cols type = 2 →
      check_placement board row col rows cols (.fin 1 (-1)) type = some 1 ∧
      check_placement board row col rows cols (.fin 8556380 (-24)) type = some 0) := by
  have hcp := fun thr => check_placement_eq board row col rows cols thr type hN.symm hr hc htype
  obtain ⟨m1, e1, hq⟩ := amt_same_of_fin _ _ hpos
  have hlt := F32_lt_fin m1 e1 m e
  have herr := amt_same_of_error _ _ hpos (same_add_different_le board row col rows cols type)
  have h1 : check_placement board row col rows cols (.fin m e) type = some 1 ↔
      F32.toRat (.fin m e) ≤ F32.toRat (.fin m1 e1) := by
    rw [hcp, hq]
    simp only [F32.toRat]
    by_cases h : F32.lt (.fin m1 e1) (.fin m e) = true
    · rw [if_pos h]
      have := hlt.mp h
      constructor
      · intro h'; exact absurd (Option.some.inj h') (by decide)
      · intro h'; exact absurd this (not_lt.mpr h')
    · rw [if_neg h]
      have := fun h' => h (hlt.mpr h')
      exact ⟨fun _ => not_lt.mp this, fun _ => rfl⟩
  have h0 : check_placement board row col rows cols (.fin m e) type = some 0 ↔
      F32.toRat (.fin m1 e1) < F32.toRat (.fin m e) := by
    rw [hcp, hq]
    simp only [F32.toRat]
    by_cases h : F32.lt (.fin m1 e1) (.fin m e) = true
    · rw [if_pos h]
      exact ⟨fun _ => hlt.mp h, fun _ => rfl⟩
    · rw [if_neg h]
      constructor
      · intro h'; exact absurd (Option.some.inj h') (by decide)
      · intro h'; exact absurd (hlt.mpr h') h
  rw [hq] at herr ⊢
  refine ⟨h1, h0, herr, ?_, ?_⟩
  · intro hgap
    refine ⟨?_, h0.trans hgap⟩
    rw [h1, ge_iff_le, ← not_lt, ← not_lt, hgap]
  · intro hs hd
    rw [hcp, hcp, hs, hd]
    decide

/-- A run of C3 on the 2x2 board `$$` / `..` at `(0, 0)` with the threshold
`0.5`: the quotient is `fl(1/3)`, below the threshold, and the agent is
unhappy. -/
theorem C3_happiness_witness :
    check_placement ['$', '$', '.', '.'] 0 0 2 2 (.fin 1 (-1)) '$' = some 0 ↔
      F32.toRat (amt_same_of (same_neighbours ['$', '$', '.', '.'] 0 0 2 2 '$')
        (different_neighbours ['$', '$', '.', '.'] 0 0 2 2 '$')) < F32.toRat (.fin 1 (-1)) :=
  (C3_happiness ['$', '$', '.', '.'] 0 0 2 2 '$' 1 (-1) (by decide) (by decide) (by decide)
    (by decide) (by decide)).2.1

/-- C4 (an isolated agent is happy). For a cell inside the grid whose
character `type` is not the blank and whose eight neighbour positions are all outside the grid or empty,
`check_placement` returns `1` for every threshold, not-a-number and the
infinities included: both counters are `0`, the quotient `0.0/0.0` is
not-a-number, and the comparison with the threshold is false. -/
theorem C4_isolated_happy (board : List Char) (row col rows cols : Int) (type : Char)
    (threshold : F32)
    (hN : (board.length : Int) = rows * cols)
    (hr : 0 ≤ row ∧ row < rows) (hc : 0 ≤ col ∧ col < cols) (htype : type ≠ ' ')
    (hiso : ∀ d ∈ moore_offsets,
      ¬ (0 ≤ row + d.1 ∧ row + d.1 < rows ∧ 0 ≤ col + d.2 ∧ col + d.2 < cols) ∨
        rd board ((row + d.1) * cols + (col + d.2)) = some ' ') :
    same_neighbours board row col rows cols type +
        different_neighbours board row col rows cols type = 0 ∧
      check_placement board row col rows cols threshold type = some 1 := by
  have hs : same_neighbours board row col rows cols type = 0 :=
    neighbours_where_eq_zero board row col rows cols _ hiso
  have hd : different_neighbours board row col rows cols type = 0 :=
    neighbours_where_eq_zero board row col rows cols _ hiso
  rw [check_placement_eq board row col rows cols threshold type hN.symm hr hc htype, hs, hd]
  refine ⟨rfl, ?_⟩
  cases threshold <;> rfl

/-- A run of C4 on the 1x3 board `$ .`: the agent at `(0, 0)` has an empty
cell to its right and nothing else around it, and is happy at the threshold
`2.0`. -/
theorem C4_isolated_happy_witness :
    same_neighbours ['$', ' ', '.'] 0 0 1 3 '$' +
        different_neighbours ['$', ' ', '.'] 0 0 1 3 '$' = 0 ∧
      check_placement ['$', ' ', '.'] 0 0 1 3 (.fin 2 0) '$' = some 1 :=
  C4_isolated_happy ['$', ' ', '.'] 0 0 1 3 '$' (.fin 2 0) (by decide) (by decide) (by decide)
    (by decide) (by decide)


theorem unhappy_at_iff (board : List Char) (rows cols : Int) (thr : F32) (i : Nat) :
    unhappy_at board rows cols thr i = true ↔
      ∃ ch, board[i]? = some ch ∧ ch ≠ ' ' ∧
        check_placement board ((i : Int) / cols) ((i : Int) % cols) rows cols thr ch = some 0 := by
  constructor
  · exact unhappy_at_nonempty board rows cols thr i
  · rintro ⟨ch, h1, h2, h3⟩
    simp [unhappy_at, h1, h2, h3]

/-- C5 (the scan). On a board of `rows * cols` cells and a buffer filled with
`-1` that has room for them, `check_agents` writes at the front of the buffer
exactly the flattened indices `i < rows * cols` whose cell is not empty and
for which `check_placement` returns `0`, in strictly increasing order and
without repetition, and leaves the rest of the buffer as it is. No index of
an empty cell is written, and nothing is written when no agent is unhappy. -/
theorem C5_scan (board : List Char) (rows cols : Int) (threshold : F32) (num_chars : Nat)
    (hrows : 1 ≤ rows) (hcols : 1 ≤ cols) (hN : (board.length : Int) = rows * cols)
    (hroom : (unhappy_indices board rows cols threshold).length ≤ num_chars) :
    check_agents board (List.replicate num_chars (-1)) rows cols threshold =
      some (unhappy_indices board rows cols threshold ++
        List.replicate (num_chars - (unhappy_indices board rows cols threshold).length) (-1)) ∧
    (unhappy_indices board rows cols threshold).Pairwise (· < ·) ∧
    (unhappy_indices board rows cols threshold).Nodup ∧
    (∀ v : Int, v ∈ unhappy_indices board rows cols threshold ↔
      ∃ i : Nat, v = (i : Int) ∧ (i : Int) < rows * cols ∧
        ∃ ch, board[i]? = some ch ∧ ch ≠ ' ' ∧
          check_placement board ((i : Int) / cols) ((i : Int) % cols) rows cols threshold ch
            = some 0) ∧
    (∀ v ∈ unhappy_indices board rows cols threshold,
      0 ≤ v ∧ v < rows * cols ∧ rd board v ≠ some ' ') ∧
    ((∀ (i : Nat) (ch : Char), board[i]? = some ch → ch ≠ ' ' →
        check_placement board ((i : Int) / cols) ((i : Int) % cols) rows cols threshold ch
          ≠ some 0) →
      unhappy_indices board rows cols threshold = []) := by
  have hmem : ∀ v : Int, v ∈ unhappy_indices board rows cols threshold ↔
      ∃ i : Nat, v = (i : Int) ∧ (i : Int) < rows * cols ∧
        ∃ ch, board[i]? = some ch ∧ ch ≠ ' ' ∧
          check_placement board ((i : Int) / cols) ((i : Int) % cols) rows cols threshold ch
            = some 0 := by
    intro v
    rw [mem_unhappy_indices]
    constructor
    · rintro ⟨i, hv, hi, hu⟩
      exact ⟨i, hv, by omega, (unhappy_at_iff board rows cols threshold i).mp hu⟩
    · rintro ⟨i, hv, hi, hu⟩
      exact ⟨i, hv, by omega, (unhappy_at_iff board rows cols threshold i).mpr hu⟩
  have hpw := unhappy_indices_pairwise board rows cols threshold
  refine ⟨?_, hpw, ?_, hmem, ?_, ?_⟩
  · obtain ⟨R, rfl⟩ := Int.eq_ofNat_of_zero_le (by omega : 0 ≤ rows)
    obtain ⟨C, rfl⟩ := Int.eq_ofNat_of_zero_le (by omega : 0 ≤ cols)
    have hN1 : R * C = board.length := by
      have : ((R * C : Nat) : Int) = (board.length : Int) := by push_cast; exact hN.symm
      exact_mod_cast this
    exact check_agents_spec board R C threshold num_chars hN1 hroom
  · exact hpw.imp (fun h => ne_of_lt h)
  · intro v hv
    obtain ⟨i, rfl, hi, ch, hb, hne, _⟩ := (hmem v).mp hv
    refine ⟨by omega, hi, ?_⟩
    rw [rd_natCast, hb]
    intro h
    exact hne (Option.some.inj h)
  · intro hnone
    rw [List.eq_nil_iff_forall_not_mem]
    intro v hv
    obtain ⟨i, _, _, ch, hb, hne, hcp⟩ := (hmem v).mp hv
    exact hnone i ch hb hne hcp

/-- A run of C5 on the 1x3 board `$. ` with threshold `1.0` and a buffer of
two entries. -/
theorem C5_scan_witness :
    check_agents ['$', '.', ' '] (List.replicate 2 (-1)) 1 3 (.fin 1 0) =
      some (unhappy_indices ['$', '.', ' '] 1 3 (.fin 1 0) ++
        List.replicate (2 - (unhappy_indices ['$', '.', ' '] 1 3 (.fin 1 0)).length) (-1)) :=
  (C5_scan ['$', '.', ' '] 1 3 (.fin 1 0) 2 (by decide) (by decide) (by decide) (by decide)).1

/-- The cells of the board after a move from `p` to `j`: `p` is empty, `j`
holds what `p` held, the others are as before. -/
theorem movedTo_cells (board : List Char) (p j : Nat) (hp : p < board.length)
    (hj : j < board.length) (hjp : j ≠ p) :
    (movedTo board p j).length = board.length ∧
    (movedTo board p j)[p]? = some ' ' ∧
    (movedTo board p j)[j]? = board[p]? ∧
    ∀ i, i ≠ p → i ≠ j → (movedTo board p j)[i]? = board[i]? := by
  refine ⟨length_movedTo board p j, ?_, ?_, ?_⟩
  · rw [movedTo, List.getElem?_set_eq_of_lt _ (by simpa using hp)]
  · rw [movedTo, List.getElem?_set_ne (Ne.symm hjp), List.getElem?_set_eq_of_lt _ hj,
      List.getD_eq_getElem?_getD, List.getElem?_eq_getElem hp]
    rfl
  · intro i hip hij
    rw [movedTo, List.getElem?_set_ne (Ne.symm hip), List.getElem?_set_ne (Ne.symm hij)]

/-- C6 (relocation). On a board of `N = rows * cols` cells, for a position
`p` inside the grid, occupied or not, and the least `d` in `[1, N-1]` such that the
cell `(p + d) mod N` is empty, `move_placement` returns the board in which
`p` is empty, `(p + d) mod N` holds what `p` held, and every other cell is as
before. -/
theorem C6_relocation (board : List Char) (row col rows cols : Int) (p d : Nat)
    (hN : (board.length : Int) = rows * cols)
    (hr : 0 ≤ row ∧ row < rows) (hc : 0 ≤ col ∧ col < cols)
    (hpos : row * cols + col = (p : Int))
    (hd1 : 1 ≤ d) (hd2 : d ≤ board.length - 1)
    (hempty : board[(p + d) % board.length]? = some ' ')
    (hleast : ∀ d1, 1 ≤ d1 → d1 < d → board[(p + d1) % board.length]? ≠ some ' ') :
    ∃ b, move_placement board row col rows cols = some b ∧
      b.length = board.length ∧
      b[p]? = some ' ' ∧
      b[(p + d) % board.length]? = board[p]? ∧
      ∀ i, i ≠ p → i ≠ (p + d) % board.length → b[i]? = board[i]? := by
  obtain ⟨_, hlt⟩ := flat_bounds rows cols row col hr.1 hr.2 hc.1 hc.2
  have hp : p < board.length := by omega
  by_cases hwrap : p + d < board.length
  · have hmod : (p + d) % board.length = p + d := Nat.mod_eq_of_lt hwrap
    rw [hmod] at hempty ⊢
    have hmv := move_placement_after board row col rows cols p (p + d) hN.symm hpos (by omega)
      hempty (by
        intro i hi1 hi2
        have := hleast (i - p) (by omega) (by omega)
        rwa [show p + (i - p) = i by omega, Nat.mod_eq_of_lt (by omega)] at this)
    obtain ⟨h1, h2, h3, h4⟩ := movedTo_cells board p (p + d) hp hwrap (by omega)
    exact ⟨_, hmv, h1, h2, h3, h4⟩
  · have hmod : (p + d) % board.length = p + d - board.length := by
      rw [Nat.mod_eq_sub_mod (by omega), Nat.mod_eq_of_lt (by omega)]
    rw [hmod] at hempty ⊢
    have hmv := move_placement_before board row col rows cols p (p + d - board.length)
      hN.symm hpos hp (by
        intro i hi h
        by_cases hil : i < board.length
        · have := hleast (i - p) (by omega) (by omega)
          rw [show p + (i - p) = i by omega, Nat.mod_eq_of_lt hil] at this
          exact this h
        · rw [List.getElem?_eq_none (by omega)] at h
          exact Option.noConfusion h)
      (by omega) hempty (by
        intro i hi
        have := hleast (i + board.length - p) (by omega) (by omega)
        rwa [show p + (i + board.length - p) = i + board.length by omega,
          Nat.add_mod_right, Nat.mod_eq_of_lt (by omega)] at this)
    obtain ⟨h1, h2, h3, h4⟩ := movedTo_cells board p (p + d - board.length) hp (by omega)
      (by omega)
    exact ⟨_, hmv, h1, h2, h3, h4⟩

/-- A run of C6 on the 1x4 board `$.$ `: the agent at index `1` goes `2`
cells forward, to index `3`. -/
theorem C6_relocation_witness :
    ∃ b, move_placement ['$', '.', '$', ' '] 0 1 1 4 = some b ∧
      b.length = ['$', '.', '$', ' '].length ∧
      b[1]? = some ' ' ∧
      b[(1 + 2) % ['$', '.', '$', ' '].length]? = ['$', '.', '$', ' '][1]? ∧
      ∀ i, i ≠ 1 → i ≠ (1 + 2) % ['$', '.', '$', ' '].length →
        b[i]? = ['$', '.', '$', ' '][i]? :=
  C6_relocation ['$', '.', '$', ' '] 0 1 1 4 1 2 (by decide) (by decide) (by decide)
    (by decide) (by decide) (by decide) (by decide)
    (by
      intro d1 h1 h2
      have : d1 = 1 := by omega
      subst this
      decide)

/-- C7 (wrap-around). On a board of `N = rows * cols` cells, when no cell
after the position `p` is empty and `j < p` is the smallest empty index,
`move_placement` puts what `p` held at `j` and empties `p`, all other cells
staying as they are. In particular, for `N ≥ 2`, an agent at the last index
`N - 1` with index `0` empty goes to index `0`. -/
theorem C7_wraparound (board : List Char) (row col rows cols : Int) (p : Nat)
    (hN : (board.length : Int) = rows * cols)
    (hpos : row * cols + col = (p : Int)) (hp : p < board.length) :
    (∀ j, (∀ i, p < i → board[i]? ≠ some ' ') → j < p → board[j]? = some ' ' →
      (∀ i, i < j → board[i]? ≠ some ' ') →
      ∃ b, move_placement board row col rows cols = some b ∧
        b.length = board.length ∧ b[j]? = board[p]? ∧ b[p]? = some ' ' ∧
        ∀ i, i ≠ p → i ≠ j → b[i]? = board[i]?) ∧
    (2 ≤ board.length → p = board.length - 1 → board[0]? = some ' ' →
      ∃ b, move_placement board row col rows cols = some b ∧
        b.length = board.length ∧ b[0]? = board[board.length - 1]? ∧
        b[board.length - 1]? = some ' ' ∧
        ∀ i, i ≠ board.length - 1 → i ≠ 0 → b[i]? = board[i]?) := by
  have gen : ∀ j, (∀ i, p < i → board[i]? ≠ some ' ') → j < p → board[j]? = some ' ' →
      (∀ i, i < j → board[i]? ≠ some ' ') →
      ∃ b, move_placement board row col rows cols = some b ∧
        b.length = board.length ∧ b[j]? = board[p]? ∧ b[p]? = some ' ' ∧
        ∀ i, i ≠ p → i ≠ j → b[i]? = board[i]? := by
    intro j hafter hjp hj hbefore
    have hmv := move_placement_before board row col rows cols p j hN.symm hpos hp hafter hjp hj
      hbefore
    obtain ⟨h1, h2, h3, h4⟩ := movedTo_cells board p j hp (by omega) (by omega)
    exact ⟨_, hmv, h1, h3, h2, h4⟩
  refine ⟨gen, ?_⟩
  intro h2 hlast h0
  subst hlast
  exact gen 0 (fun i hi => by rw [List.getElem?_eq_none (by omega)]; exact Option.noConfusion)
    (by omega) h0 (fun i hi => by omega)

/-- A run of C7 on the 1x3 board ` .$`: the agent at the last index `2` goes
to index `0`. -/
theorem C7_wraparound_witness :
    ∃ b, move_placement [' ', '.', '$'] 0 2 1 3 = some b ∧
      b.length = [' ', '.', '$'].length ∧ b[0]? = [' ', '.', '$'][[' ', '.', '$'].length - 1]? ∧
      b[[' ', '.', '$'].length - 1]? = some ' ' ∧
      ∀ i, i ≠ [' ', '.', '$'].length - 1 → i ≠ 0 → b[i]? = [' ', '.', '$'][i]? :=
  (C7_wraparound [' ', '.', '$'] 0 2 1 3 2 (by decide) (by decide) (by decide)).2
    (by decide) (by decide) (by decide)

/-- C8 (a full board). On a board of `rows * cols` cells (so `rows` and `cols`
are at least `1` when a position lies inside the grid) without an empty cell,
`move_placement` at any position inside the grid returns normally, and
returns the board cell for cell as it was. -/
theorem C8_full_board (board : List Char) (row col rows cols : Int)
    (hN : (board.length : Int) = rows * cols)
    (hr : 0 ≤ row ∧ row < rows) (hc : 0 ≤ col ∧ col < cols)
    (hfull : ∀ ch ∈ board, ch ≠ ' ') :
    move_placement board row col rows cols = some board := by
  obtain ⟨h0, hlt⟩ := flat_bounds rows cols row col hr.1 hr.2 hc.1 hc.2
  refine move_placement_none board row col rows cols (row * cols + col).toNat hN.symm
    (by omega) (by omega) ?_
  intro i _ hi
  exact hfull ' ' (List.mem_iff_getElem?.mpr ⟨i, hi⟩) rfl

/-- A run of C8 on the full 2x2 board `$.` / `.$` at `(1, 0)`. -/
theorem C8_full_board_witness :
    move_placement ['$', '.', '.', '$'] 1 0 2 2 = some ['$', '.', '.', '$'] :=
  C8_full_board ['$', '.', '.', '$'] 1 0 2 2 (by decide) (by decide) (by decide) (by decide)


theorem check_agents_scanned (board : List Char) (rows cols : Int) (thr : F32) (L : Nat)
    (hrows : 0 ≤ rows) (hcols : 0 ≤ cols) (hN : (board.length : Int) = rows * cols)
    (hroom : (unhappy_indices board rows cols thr).length ≤ L) :
    check_agents board (List.replicate L (-1)) rows cols thr =
      some (scanned board rows cols thr L) := by
  obtain ⟨R, rfl⟩ := Int.eq_ofNat_of_zero_le hrows
  obtain ⟨C, rfl⟩ := Int.eq_ofNat_of_zero_le hcols
  have hN1 : R * C = board.length := by
    have : ((R * C : Nat) : Int) = (board.length : Int) := by push_cast; exact hN.symm
    exact_mod_cast this
  exact check_agents_spec board R C thr L hN1 hroom

theorem unhappy_indices_eq_nil (board : List Char) (rows cols : Int) (thr : F32)
    (hN : (board.length : Int) = rows * cols)
    (h : unhappy_indices board rows cols thr = []) (i : Nat) (ch : Char)
    (hb : board[i]? = some ch) (hne : ch ≠ ' ') :
    check_placement board ((i : Int) / cols) ((i : Int) % cols) rows cols thr ch ≠ some 0 := by
  intro hcp
  have hi : i < board.length := by
    by_contra hlt
    rw [List.getElem?_eq_none (by omega)] at hb
    exact Option.noConfusion hb
  have hmem : (i : Int) ∈ unhappy_indices board rows cols thr :=
    (mem_unhappy_indices board rows cols thr i).mpr
      ⟨i, rfl, by omega, (unhappy_at_iff board rows cols thr i).mpr ⟨ch, hb, hne, hcp⟩⟩
  rw [h] at hmem
  exact List.not_mem_nil _ hmem

/-- C9 (termination). For a board of `rows * cols` cells whose occupants fit
the buffer of `main`, every threshold and every budget `n ≥ 0`, the
simulation loop ends: the embedding, which runs on the budget as its fuel,
returns a final state, never for want of fuel and never by a fault. The
budget went down by one for each call of `move_placement`, there were at most
`n` calls, and with `n = 0` there was none and the board is as it was. -/
theorem C9_termination (board : List Char) (rows cols : Int) (threshold : F32)
    (n num_chars : Int) (hrows : 1 ≤ rows) (hcols : 1 ≤ cols)
    (hN : (board.length : Int) = rows * cols) (hocc : (occupied board : Int) ≤ num_chars)
    (hn : 0 ≤ n) :
    ∃ s, (simulate board rows cols n threshold num_chars).final = some s ∧
      simulate board rows cols n threshold num_chars ≠ .fuel ∧
      simulate board rows cols n threshold num_chars ≠ .fault ∧
      s.num_iterations = n - (s.moves : Int) ∧ (s.moves : Int) ≤ n ∧ 0 ≤ s.num_iterations ∧
      (n = 0 → s.board = board ∧ s.moves = 0 ∧ s.num_iterations = 0) := by
  obtain ⟨s, hres, _, _, _, hbud, hnn, hstop⟩ := simulate_spec board rows cols n threshold
    num_chars (by omega) (by omega) hN hocc (fun _ => True) trivial
    (fun _ _ _ _ _ _ _ _ => trivial)
  have hnn1 := hnn hn
  refine ⟨s, ?_, ?_, ?_, by omega, by omega, hnn1, ?_⟩
  · rcases hres with ⟨h, _⟩ | ⟨h, _⟩ <;> rw [h] <;> rfl
  · rcases hres with ⟨h, _⟩ | ⟨h, _⟩ <;> rw [h] <;> exact Flow.noConfusion
  · rcases hres with ⟨h, _⟩ | ⟨h, _⟩ <;> rw [h] <;> exact Flow.noConfusion
  · intro h0
    have := hstop (Or.inl (by omega))
    rw [this]
    exact ⟨rfl, rfl, h0⟩

/-- A run of C9 on the 1x3 board `$. ` with threshold `1.0`, budget `1` and a
buffer of two entries. -/
theorem C9_termination_witness :
    ∃ s, (simulate ['$', '.', ' '] 1 3 1 (.fin 1 0) 2).final = some s ∧
      simulate ['$', '.', ' '] 1 3 1 (.fin 1 0) 2 ≠ .fuel ∧
      simulate ['$', '.', ' '] 1 3 1 (.fin 1 0) 2 ≠ .fault ∧
      s.num_iterations = 1 - (s.moves : Int) ∧ (s.moves : Int) ≤ 1 ∧ 0 ≤ s.num_iterations ∧
      ((1 : Int) = 0 → s.board = ['$', '.', ' '] ∧ s.moves = 0 ∧ s.num_iterations = 0) :=
  C9_termination ['$', '.', ' '] 1 3 (.fin 1 0) 1 2 (by decide) (by decide) (by decide)
    (by decide) (by decide)

/-- C10 (terminal states). For a board of `rows * cols` cells whose occupants
fit the buffer of `main`, every threshold and every budget `n ≥ 0`, the
simulation loop ends either with the budget at `0` or on a board whose scan
writes nothing. So if it ends with budget left, `check_placement` returns
`0` for no occupant of the final board; and if the scan of the initial board
writes nothing, the board and the budget are as they were. -/
theorem C10_terminal_states (board : List Char) (rows cols : Int) (threshold : F32)
    (n num_chars : Int) (hrows : 1 ≤ rows) (hcols : 1 ≤ cols)
    (hN : (board.length : Int) = rows * cols) (hocc : (occupied board : Int) ≤ num_chars)
    (hn : 0 ≤ n) :
    ∃ s, (simulate board rows cols n threshold num_chars).final = some s ∧
      (s.num_iterations = 0 ∨
        (unhappy_indices s.board rows cols threshold = [] ∧
          check_agents s.board (List.replicate num_chars.toNat (-1)) rows cols threshold =
            some (List.replicate num_chars.toNat (-1)))) ∧
      (0 < s.num_iterations →
        ∀ (i : Nat) (ch : Char), s.board[i]? = some ch → ch ≠ ' ' →
          check_placement s.board ((i : Int) / cols) ((i : Int) % cols) rows cols threshold ch
            ≠ some 0) ∧
      (unhappy_indices board rows cols threshold = [] →
        s.board = board ∧ s.num_iterations = n ∧ s.moves = 0) := by
  obtain ⟨s, hres, hlen, _, _, _, hnn, hstop⟩ := simulate_spec board rows cols n threshold
    num_chars (by omega) (by omega) hN hocc (fun _ => True) trivial
    (fun _ _ _ _ _ _ _ _ => trivial)
  have hnn1 := hnn hn
  have hNs : (s.board.length : Int) = rows * cols := by rw [hlen]; exact hN
  have hterm : s.num_iterations = 0 ∨ unhappy_indices s.board rows cols threshold = [] := by
    rcases hres with ⟨_, h⟩ | ⟨_, _, h | h⟩
    · exact Or.inl h
    · exact Or.inl (by omega)
    · exact Or.inr h
  refine ⟨s, ?_, ?_, ?_, ?_⟩
  · rcases hres with ⟨h, _⟩ | ⟨h, _⟩ <;> rw [h] <;> rfl
  · rcases hterm with h | h
    · exact Or.inl h
    · refine Or.inr ⟨h, ?_⟩
      rw [check_agents_scanned s.board rows cols threshold num_chars.toNat (by omega) (by omega)
        hNs (by rw [h]; exact Nat.zero_le _), scanned, h]
      simp
  · intro hpos i ch hb hne
    rcases hterm with h | h
    · omega
    · exact unhappy_indices_eq_nil s.board rows cols threshold hNs h i ch hb hne
  · intro h
    have := hstop (Or.inr h)
    rw [this]
    exact ⟨rfl, rfl, rfl⟩

/-- A run of C10 on the 1x3 board `$. ` with threshold `1.0`, budget `10` and
a buffer of two entries. -/
theorem C10_terminal_states_witness :
    ∃ s, (simulate ['$', '.', ' '] 1 3 10 (.fin 1 0) 2).final = some s ∧
      (s.num_iterations = 0 ∨
        (unhappy_indices s.board 1 3 (.fin 1 0) = [] ∧
          check_agents s.board (List.replicate (2 : Int).toNat (-1)) 1 3 (.fin 1 0) =
            some (List.replicate (2 : Int).toNat (-1)))) ∧
      (0 < s.num_iterations →
        ∀ (i : Nat) (ch : Char), s.board[i]? = some ch → ch ≠ ' ' →
          check_placement s.board ((i : Int) / 3) ((i : Int) % 3) 1 3 (.fin 1 0) ch
            ≠ some 0) ∧
      (unhappy_indices ['$', '.', ' '] 1 3 (.fin 1 0) = [] →
        s.board = ['$', '.', ' '] ∧ s.num_iterations = 10 ∧ s.moves = 0) :=
  C10_terminal_states ['$', '.', ' '] 1 3 (.fin 1 0) 10 2 (by decide) (by decide) (by decide)
    (by decide) (by decide)

/-- C16 (the buffer of unhappy spots is never overrun). On a board of
`rows * cols` cells the scan finds at most as many unhappy agents as there
are non-empty cells. So with a buffer of `num_chars = num_d + num_p` entries,
no fewer than the occupants, `check_agents` on any board with the same cells
and as many occupants writes inside the buffer (a write outside it is a fault
of the embedding), and the whole simulation, every scan of which runs on such
a board, ends without a fault. -/
theorem C16_buffer_bound (board : List Char) (rows cols : Int) (threshold : F32)
    (n num_chars : Int) (hrows : 1 ≤ rows) (hcols : 1 ≤ cols)
    (hN : (board.length : Int) = rows * cols) (hocc : (occupied board : Int) ≤ num_chars) :
    (unhappy_indices board rows cols threshold).length ≤ occupied board ∧
    (∀ b : List Char, (b.length : Int) = rows * cols → occupied b = occupied board →
      ((unhappy_indices b rows cols threshold).length : Int) ≤ num_chars ∧
      ∃ spots, check_agents b (List.replicate num_chars.toNat (-1)) rows cols threshold
          = some spots ∧ spots.length = num_chars.toNat) ∧
    (∃ s, (simulate board rows cols n threshold num_chars).final = some s ∧
      simulate board rows cols n threshold num_chars ≠ .fault ∧
      (s.board.length : Int) = rows * cols ∧ occupied s.board = occupied board) := by
  refine ⟨unhappy_indices_length_le board rows cols threshold hN.symm, ?_, ?_⟩
  · intro b hb hoccb
    have hle := unhappy_indices_length_le b rows cols threshold hb.symm
    have hroom : (unhappy_indices b rows cols threshold).length ≤ num_chars.toNat := by omega
    refine ⟨by omega, scanned b rows cols threshold num_chars.toNat, ?_, ?_⟩
    · exact check_agents_scanned b rows cols threshold num_chars.toNat (by omega) (by omega) hb
        hroom
    · exact scanned_length b rows cols threshold num_chars.toNat hroom
  · obtain ⟨s, hres, hlen, _, hs, _⟩ := simulate_spec board rows cols n threshold
      num_chars (by omega) (by omega) hN hocc (fun _ => True) trivial
      (fun _ _ _ _ _ _ _ _ => trivial)
    refine ⟨s, ?_, ?_, by rw [hlen]; exact hN, hs⟩
    · rcases hres with ⟨h, _⟩ | ⟨h, _⟩ <;> rw [h] <;> rfl
    · rcases hres with ⟨h, _⟩ | ⟨h, _⟩ <;> rw [h] <;> exact Flow.noConfusion

/-- A run of C16 on the 1x3 board `$. ` with threshold `1.0`, budget `10` and
a buffer of two entries. -/
theorem C16_buffer_bound_witness :
    (unhappy_indices ['$', '.', ' '] 1 3 (.fin 1 0)).length ≤ occupied ['$', '.', ' '] ∧
    (∀ b : List Char, (b.length : Int) = 1 * 3 → occupied b = occupied ['$', '.', ' '] →
      ((unhappy_indices b 1 3 (.fin 1 0)).length : Int) ≤ 2 ∧
      ∃ spots, check_agents b (List.replicate (2 : Int).toNat (-1)) 1 3 (.fin 1 0)
          = some spots ∧ spots.length = (2 : Int).toNat) ∧
    (∃ s, (simulate ['$', '.', ' '] 1 3 10 (.fin 1 0) 2).final = some s ∧
      simulate ['$', '.', ' '] 1 3 10 (.fin 1 0) 2 ≠ .fault ∧
      (s.board.length : Int) = 1 * 3 ∧ occupied s.board = occupied ['$', '.', ' ']) :=
  C16_buffer_bound ['$', '.', ' '] 1 3 (.fin 1 0) 10 2 (by decide) (by decide) (by decide)
    (by decide)

/-- C17 (each type is conserved). On a board of `rows * cols` cells,
`move_placement` at a position `p` inside the grid returns a board of the same
length that is the input, or the input with the contents of `p` and of one
empty cell exchanged; so it keeps the number of `$` and the number of `.`, and
so does the simulation, whose final board has the length of the initial one. -/
theorem C17_per_type (board : List Char) (rows cols : Int)
    (hrows : 1 ≤ rows) (hcols : 1 ≤ cols) (hN : (board.length : Int) = rows * cols) :
    (∀ (row col : Int) (p : Nat), 0 ≤ row → row < rows → 0 ≤ col → col < cols →
      row * cols + col = (p : Int) →
      ∃ b, move_placement board row col rows cols = some b ∧ b.length = board.length ∧
        (b = board ∨ ∃ j, j ≠ p ∧ board[j]? = some ' ' ∧ b[j]? = board[p]? ∧
          b[p]? = board[j]? ∧ ∀ i, i ≠ p → i ≠ j → b[i]? = board[i]?) ∧
        b.count '$' = board.count '$' ∧ b.count '.' = board.count '.') ∧
    (∀ (threshold : F32) (num_iterations num_chars : Int),
      (occupied board : Int) ≤ num_chars →
      ∃ s, (simulate board rows cols num_iterations threshold num_chars).final = some s ∧
        s.board.length = board.length ∧
        s.board.count '$' = board.count '$' ∧ s.board.count '.' = board.count '.') := by
  constructor
  · intro row col p hr0 hr hc0 hc hpos
    obtain ⟨_, hlt⟩ := flat_bounds rows cols row col hr0 hr hc0 hc
    have hp : p < board.length := by omega
    rcases move_placement_cases board row col rows cols p hN.symm hpos hp with
      h | ⟨j, hjp, hj, h⟩
    · exact ⟨board, h, rfl, Or.inl rfl, rfl, rfl⟩
    · have hjl : j < board.length := by
        by_contra hh
        rw [List.getElem?_eq_none (by omega)] at hj
        exact Option.noConfusion hj
      obtain ⟨h1, h2, h3, h4⟩ := movedTo_cells board p j hp hjl hjp
      refine ⟨_, h, h1, Or.inr ⟨j, hjp, hj, h3, by rw [h2, hj], h4⟩, ?_, ?_⟩
      · exact countP_movedTo _ board p j hp hjp hj
      · exact countP_movedTo _ board p j hp hjp hj
  · intro threshold num_iterations num_chars hocc
    obtain ⟨s, hres, hlen, hP, _⟩ := simulate_spec board rows cols num_iterations threshold
      num_chars (by omega) (by omega) hN hocc
      (fun b => b.count '$' = board.count '$' ∧ b.count '.' = board.count '.') ⟨rfl, rfl⟩
      (by
        intro b p j _ hp hjp hj hb
        exact ⟨(countP_movedTo _ b p j hp hjp hj).trans hb.1,
          (countP_movedTo _ b p j hp hjp hj).trans hb.2⟩)
    refine ⟨s, ?_, hlen, hP.1, hP.2⟩
    rcases hres with ⟨h, _⟩ | ⟨h, _⟩ <;> rw [h] <;> rfl

/-- A run of C17 on the 1x3 board `$. `: the move of the agent at `(0, 0)` and
the simulation with threshold `1.0`, budget `10` and a buffer of two
entries. -/
theorem C17_per_type_witness :
    (∃ b, move_placement ['$', '.', ' '] 0 0 1 3 = some b ∧
      b.length = ['$', '.', ' '].length ∧
      (b = ['$', '.', ' '] ∨ ∃ j, j ≠ 0 ∧ ['$', '.', ' '][j]? = some ' ' ∧
        b[j]? = ['$', '.', ' '][0]? ∧ b[0]? = ['$', '.', ' '][j]? ∧
        ∀ i, i ≠ 0 → i ≠ j → b[i]? = ['$', '.', ' '][i]?) ∧
      b.count '$' = ['$', '.', ' '].count '$' ∧ b.count '.' = ['$', '.', ' '].count '.') ∧
    (∃ s, (simulate ['$', '.', ' '] 1 3 10 (.fin 1 0) 2).final = some s ∧
      s.board.length = ['$', '.', ' '].length ∧
      s.board.count '$' = ['$', '.', ' '].count '$' ∧
      s.board.count '.' = ['$', '.', ' '].count '.') :=
  ⟨(C17_per_type ['$', '.', ' '] 1 3 (by decide) (by decide) (by decide)).1 0 0 0
      (by decide) (by decide) (by decide) (by decide) (by decide),
    (C17_per_type ['$', '.', ' '] 1 3 (by decide) (by decide) (by decide)).2 (.fin 1 0) 10 2
      (by decide)⟩

theorem unhappy_boolean_loop_one (spots : List Int) :
    ∀ (k i : Nat), i + k ≤ spots.length →
      (∃ t, i ≤ t ∧ t < i + k ∧ spots[t]? ≠ some (-1)) →
      unhappy_boolean_loop spots k (i : Int) = some 1 := by
  intro k
  induction k with
  | zero => rintro i _ ⟨t, h1, h2, _⟩; omega
  | succ k ih =>
    rintro i hlen ⟨t, h1, h2, h3⟩
    have hi : i < spots.length := by omega
    have hc : ((i : Int) + 1) = ((i + 1 : Nat) : Int) := by push_cast; rfl
    rw [unhappy_boolean_loop, rd_natCast, List.getElem?_eq_getElem hi]
    simp only []
    by_cases hv : spots[i] = -1
    · rw [if_neg (by simpa using hv), hc]
      refine ih (i + 1) (by omega) ⟨t, ?_, by omega, h3⟩
      by_contra hlt
      have hti : t = i := by omega
      subst hti
      rw [List.getElem?_eq_getElem hi, hv] at h3
      exact h3 rfl
    · rw [if_pos hv]

theorem unhappy_boolean_iff (spots : List Int) (L : Nat) (hlen : L ≤ spots.length) :
    (unhappy_boolean spots (L : Int) = some 1 ↔ ∃ i, i < L ∧ spots[i]? ≠ some (-1)) ∧
    (unhappy_boolean spots (L : Int) = some 0 ↔ ¬ ∃ i, i < L ∧ spots[i]? ≠ some (-1)) := by
  have hz : unhappy_boolean spots (L : Int) = unhappy_boolean_loop spots L ((0 : Nat) : Int) :=
    rfl
  by_cases h : ∃ i, i < L ∧ spots[i]? ≠ some (-1)
  · obtain ⟨t, h2, h3⟩ := h
    have h1 := unhappy_boolean_loop_one spots L 0 (by omega) ⟨t, Nat.zero_le _, by omega, h3⟩
    rw [hz, h1]
    exact ⟨⟨fun _ => ⟨t, h2, h3⟩, fun _ => rfl⟩,
      ⟨fun hh => absurd (Option.some.inj hh) (by decide), fun hh => absurd ⟨t, h2, h3⟩ hh⟩⟩
  · have h1 := unhappy_boolean_loop_zero spots L 0 (by omega) (by
      intro t _ ht
      by_contra hne
      exact h ⟨t, by omega, hne⟩)
    rw [hz, h1]
    exact ⟨⟨fun hh => absurd (Option.some.inj hh) (by decide), fun hh => absurd hh h⟩,
      ⟨fun _ => h, fun _ => rfl⟩⟩

theorem unhappy_indices_ne_nil_iff (board : List Char) (rows cols : Int) (thr : F32)
    (hN : (board.length : Int) = rows * cols) :
    unhappy_indices board rows cols thr ≠ [] ↔
      ∃ (i : Nat) (ch : Char), board[i]? = some ch ∧ ch ≠ ' ' ∧
        check_placement board ((i : Int) / cols) ((i : Int) % cols) rows cols thr ch
          = some 0 := by
  constructor
  · intro hne
    obtain ⟨v, hv⟩ := List.exists_mem_of_ne_nil _ hne
    obtain ⟨i, _, _, hu⟩ := (mem_unhappy_indices board rows cols thr v).mp hv
    obtain ⟨ch, h1, h2, h3⟩ := (unhappy_at_iff board rows cols thr i).mp hu
    exact ⟨i, ch, h1, h2, h3⟩
  · rintro ⟨i, ch, h1, h2, h3⟩ hnil
    exact unhappy_indices_eq_nil board rows cols thr hN hnil i ch h1 h2 h3

/-- C12 (moves that change nothing use up the budget). On a board of
`rows * cols` cells without an empty cell, on which the scan finds an unhappy
agent, and with a budget `n ≥ 1`, the simulation ends with the board cell for
cell as it was and the budget at `0`, after exactly `n` calls of
`move_placement`. -/
theorem C12_full_board_budget (board : List Char) (rows cols : Int) (threshold : F32)
    (n num_chars : Int) (hrows : 1 ≤ rows) (hcols : 1 ≤ cols)
    (hN : (board.length : Int) = rows * cols) (hocc : (occupied board : Int) ≤ num_chars)
    (hfull : ∀ ch ∈ board, ch ≠ ' ')
    (hunhappy : ∃ (i : Nat) (ch : Char), board[i]? = some ch ∧ ch ≠ ' ' ∧
      check_placement board ((i : Int) / cols) ((i : Int) % cols) rows cols threshold ch
        = some 0)
    (hn : 1 ≤ n) :
    ∃ s, (simulate board rows cols n threshold num_chars).final = some s ∧
      s.board = board ∧ s.num_iterations = 0 ∧ (s.moves : Int) = n := by
  obtain ⟨s, hres, _, hP, _, hbud, hnn, _⟩ := simulate_spec board rows cols n threshold
    num_chars (by omega) (by omega) hN hocc (fun b => b = board) rfl
    (by
      intro b p j _ _ _ hj hb
      subst hb
      exact absurd rfl (hfull ' ' (List.mem_iff_getElem?.mpr ⟨j, hj⟩)))
  have hb : s.board = board := hP
  have hnn1 := hnn (by omega)
  have hz : s.num_iterations = 0 := by
    rcases hres with ⟨_, h⟩ | ⟨_, _, h | h⟩
    · exact h
    · omega
    · rw [hb] at h
      exact absurd h ((unhappy_indices_ne_nil_iff board rows cols threshold hN).mpr hunhappy)
  refine ⟨s, ?_, hb, hz, by omega⟩
  rcases hres with ⟨h, _⟩ | ⟨h, _⟩ <;> rw [h] <;> rfl

/-- A run of C12 on the full 1x2 board `$.` with threshold `1.0`, budget `3`
and a buffer of two entries. -/
theorem C12_full_board_budget_witness :
    ∃ s, (simulate ['$', '.'] 1 2 3 (.fin 1 0) 2).final = some s ∧
      s.board = ['$', '.'] ∧ s.num_iterations = 0 ∧ (s.moves : Int) = 3 :=
  C12_full_board_budget ['$', '.'] 1 2 (.fin 1 0) 3 2 (by decide) (by decide) (by decide)
    (by decide) (by decide) ⟨0, '$', by decide, by decide, by decide⟩ (by decide)

/-- C14 (what `unhappy_boolean` returns). On a buffer with at least
`num_chars` entries, `unhappy_boolean` returns `1` exactly when one of the
first `num_chars` entries is not `-1`, and `0` exactly when all of them are
`-1`. On the buffer that `check_agents` leaves, from a buffer of `num_chars`
entries `-1` with room for the unhappy indices, it returns `1` exactly when
`check_placement` returns `0` for some occupant of the board and `0` exactly
when it does so for none; this is the first half of the condition of the
`while` loop, the second being `num_iterations > 0`. -/
theorem C14_unhappy_boolean (unhappy_spots : List Int) (num_chars : Nat)
    (board : List Char) (rows cols : Int) (threshold : F32)
    (hlen : num_chars ≤ unhappy_spots.length)
    (hrows : 1 ≤ rows) (hcols : 1 ≤ cols) (hN : (board.length : Int) = rows * cols)
    (hroom : (unhappy_indices board rows cols threshold).length ≤ num_chars) :
    (unhappy_boolean unhappy_spots (num_chars : Int) = some 1 ↔
      ∃ i, i < num_chars ∧ unhappy_spots[i]? ≠ some (-1)) ∧
    (unhappy_boolean unhappy_spots (num_chars : Int) = some 0 ↔
      ¬ ∃ i, i < num_chars ∧ unhappy_spots[i]? ≠ some (-1)) ∧
    (∃ spots, check_agents board (List.replicate num_chars (-1)) rows cols threshold
        = some spots ∧
      (unhappy_boolean spots (num_chars : Int) = some 1 ↔
        ∃ (i : Nat) (ch : Char), board[i]? = some ch ∧ ch ≠ ' ' ∧
          check_placement board ((i : Int) / cols) ((i : Int) % cols) rows cols threshold ch
            = some 0) ∧
      (unhappy_boolean spots (num_chars : Int) = some 0 ↔
        ¬ ∃ (i : Nat) (ch : Char), board[i]? = some ch ∧ ch ≠ ' ' ∧
          check_placement board ((i : Int) / cols) ((i : Int) % cols) rows cols threshold ch
            = some 0)) := by
  refine ⟨(unhappy_boolean_iff unhappy_spots num_chars hlen).1,
    (unhappy_boolean_iff unhappy_spots num_chars hlen).2, ?_⟩
  refine ⟨scanned board rows cols threshold num_chars,
    check_agents_scanned board rows cols threshold num_chars (by omega) (by omega) hN hroom, ?_⟩
  rw [unhappy_boolean_scanned board rows cols threshold num_chars hroom,
    ← unhappy_indices_ne_nil_iff board rows cols threshold hN]
  by_cases hnil : unhappy_indices board rows cols threshold = []
  · rw [if_pos hnil]
    exact ⟨⟨fun h => absurd (Option.some.inj h) (by decide), fun h => absurd hnil h⟩,
      ⟨fun _ h => h hnil, fun _ => rfl⟩⟩
  · rw [if_neg hnil]
    exact ⟨⟨fun _ => hnil, fun _ => rfl⟩,
      ⟨fun h => absurd (Option.some.inj h) (by decide), fun h => absurd hnil h⟩⟩

/-- A run of C14 on the buffer `[-1, 4, -1]`, of which the first two entries
are looked at, and on the 1x3 board `$. ` with threshold `1.0`. -/
theorem C14_unhappy_boolean_witness :
    (unhappy_boolean [-1, 4, -1] ((2 : Nat) : Int) = some 1 ↔
      ∃ i, i < 2 ∧ ([-1, 4, -1] : List Int)[i]? ≠ some (-1)) :=
  (C14_unhappy_boolean [-1, 4, -1] 2 ['$', '.', ' '] 1 3 (.fin 1 0) (by decide) (by decide)
    (by decide) (by decide) (by decide)).1

theorem count_neighbours_reads (board : List Char) (row col rows cols : Int) (type : Char) :
    count_neighbours board row col rows cols type =
      tally_all board type (neighbour_reads row col rows cols) (0, 0) := by
  unfold count_neighbours neighbour_reads
  simp only []
  split_ifs <;> simp [tally_all, Option.bind_assoc]

theorem mem_neighbour_reads (row col rows cols i : Int) :
    i ∈ neighbour_reads row col rows cols ↔
      (row ≠ 0 ∧ i = (row - 1) * cols + col) ∨
      (row ≠ 0 ∧ col ≠ 0 ∧ i = (row - 1) * cols + col - 1) ∨
      (row ≠ 0 ∧ col ≠ cols - 1 ∧ i = (row - 1) * cols + col + 1) ∨
      (row ≠ rows - 1 ∧ i = (row + 1) * cols + col) ∨
      (row ≠ rows - 1 ∧ col ≠ 0 ∧ i = (row + 1) * cols + col - 1) ∨
      (row ≠ rows - 1 ∧ col ≠ cols - 1 ∧ i = (row + 1) * cols + col + 1) ∨
      (col ≠ 0 ∧ i = row * cols + col - 1) ∨
      (col ≠ cols - 1 ∧ i = row * cols + col + 1) := by
  unfold neighbour_reads
  simp only []
  split_ifs <;> simp [*]

theorem neighbour_reads_genuine (row col rows cols i : Int)
    (hr : 0 ≤ row ∧ row < rows) (hc : 0 ≤ col ∧ col < cols)
    (hi : i ∈ neighbour_reads row col rows cols) :
    ∃ d ∈ moore_offsets,
      (0 ≤ row + d.1 ∧ row + d.1 < rows ∧ 0 ≤ col + d.2 ∧ col + d.2 < cols) ∧
      i = (row + d.1) * cols + (col + d.2) := by
  rcases (mem_neighbour_reads row col rows cols i).mp hi with
    ⟨h1, rfl⟩ | ⟨h1, h2, rfl⟩ | ⟨h1, h2, rfl⟩ | ⟨h1, rfl⟩ | ⟨h1, h2, rfl⟩ | ⟨h1, h2, rfl⟩ |
    ⟨h1, rfl⟩ | ⟨h1, rfl⟩
  · exact ⟨(-1, 0), by simp [moore_offsets], by constructor <;> omega, by ring⟩
  · exact ⟨(-1, -1), by simp [moore_offsets], by constructor <;> omega, by ring⟩
  · exact ⟨(-1, 1), by simp [moore_offsets], by constructor <;> omega, by ring⟩
  · exact ⟨(1, 0), by simp [moore_offsets], by constructor <;> omega, by ring⟩
  · exact ⟨(1, -1), by simp [moore_offsets], by constructor <;> omega, by ring⟩
  · exact ⟨(1, 1), by simp [moore_offsets], by constructor <;> omega, by ring⟩
  · exact ⟨(0, -1), by simp [moore_offsets], by constructor <;> omega, by ring⟩
  · exact ⟨(0, 1), by simp [moore_offsets], by constructor <;> omega, by ring⟩

/-- C13, as the specification states it, fails in its clause on the
neighbouring rows: on a 2x2 grid the cell `(1, 0)`, in column `0`, reads the
index `1` of `(0, 1)`, the last cell of the previous row (it is its upper-right
neighbour), and the cell `(0, 1)`, in the last column, reads the index `2` of
`(1, 0)`, the first cell of the next row. The answer of `check_placement` at
`(1, 0)` changes with the character at index `1`. -/
theorem C13_neighbour_rows_counterexample :
    ((1 - 1) * 2 + (2 - 1) : Int) ∈ neighbour_reads 1 0 2 2 ∧
    ((0 + 1) * 2 + 0 : Int) ∈ neighbour_reads 0 1 2 2 ∧
    check_placement [' ', '.', '.', ' '] 1 0 2 2 (.fin 1 0) '.' = some 1 ∧
    check_placement [' ', '$', '.', ' '] 1 0 2 2 (.fin 1 0) '.' = some 0 := by
  decide

/-- C13, amended. For a cell `(row, col)` inside a grid of `rows * cols`
cells (so `rows` and `cols` are at least `1`, a single row or column
included), the neighbour blocks of `check_placement` run at the indices of
`neighbour_reads` and at no other. Each of these indices lies in
`[0, rows * cols)` and is the flattened index of a Moore neighbour
`(row + dr, col + dc)` that lies inside the grid. When the grid has at least
`3` columns, a cell in column `0` does not read the last cell of the previous
row and a cell in the last column does not read the first cell of the next
row. On a board of `rows * cols` cells `check_placement` returns `0` or `1`,
never the fault of a read outside the board. -/
theorem C13_reads_in_bounds (board : List Char) (row col rows cols : Int)
    (threshold : F32) (type : Char)
    (hr : 0 ≤ row ∧ row < rows) (hc : 0 ≤ col ∧ col < cols)
    (hN : (board.length : Int) = rows * cols) :
    count_neighbours board row col rows cols type =
      tally_all board type (neighbour_reads row col rows cols) (0, 0) ∧
    (∀ i ∈ neighbour_reads row col rows cols,
      (0 ≤ i ∧ i < rows * cols) ∧
      ∃ d ∈ moore_offsets,
        (0 ≤ row + d.1 ∧ row + d.1 < rows ∧ 0 ≤ col + d.2 ∧ col + d.2 < cols) ∧
        i = (row + d.1) * cols + (col + d.2)) ∧
    (3 ≤ cols → col = 0 → (row - 1) * cols + (cols - 1) ∉ neighbour_reads row col rows cols) ∧
    (3 ≤ cols → col = cols - 1 → (row + 1) * cols + 0 ∉ neighbour_reads row col rows cols) ∧
    (check_placement board row col rows cols threshold type = some 0 ∨
      check_placement board row col rows cols threshold type = some 1) := by
  refine ⟨count_neighbours_reads board row col rows cols type, ?_, ?_, ?_,
    check_placement_some board row col rows cols threshold type hN.symm hr hc⟩
  · intro i hi
    obtain ⟨d, hd, hin, rfl⟩ := neighbour_reads_genuine row col rows cols i hr hc hi
    exact ⟨flat_bounds rows cols _ _ hin.1 hin.2.1 hin.2.2.1 hin.2.2.2, d, hd, hin, rfl⟩
  · intro h3 hc0 hmem
    subst hc0
    rcases (mem_neighbour_reads row 0 rows cols _).mp hmem with
      ⟨_, h⟩ | ⟨_, h, _⟩ | ⟨_, _, h⟩ | ⟨_, h⟩ | ⟨_, h, _⟩ | ⟨_, _, h⟩ | ⟨h, _⟩ | ⟨_, h⟩
    · have : (row - 1) * cols + (cols - 1) - ((row - 1) * cols + 0) = cols - 1 := by ring
      omega
    · exact h rfl
    · have : (row - 1) * cols + (cols - 1) - ((row - 1) * cols + 0 + 1) = cols - 2 := by ring
      omega
    · have : (row + 1) * cols + 0 - ((row - 1) * cols + (cols - 1)) = cols + 1 := by ring
      omega
    · exact h rfl
    · have : (row + 1) * cols + 0 + 1 - ((row - 1) * cols + (cols - 1)) = cols + 2 := by ring
      omega
    · exact h rfl
    · have : row * cols + 0 + 1 - ((row - 1) * cols + (cols - 1)) = 2 := by ring
      omega
  · intro h3 hc1 hmem
    rcases (mem_neighbour_reads row col rows cols _).mp hmem with
      ⟨_, h⟩ | ⟨_, _, h⟩ | ⟨_, h, _⟩ | ⟨_, h⟩ | ⟨_, _, h⟩ | ⟨_, h, _⟩ | ⟨_, h⟩ | ⟨h, _⟩
    · have : (row + 1) * cols + 0 - ((row - 1) * cols + col) = 2 * cols - col := by ring
      omega
    · have : (row + 1) * cols + 0 - ((row - 1) * cols + col - 1) = 2 * cols - col + 1 := by
        ring
      omega
    · exact h hc1
    · have : (row + 1) * cols + 0 - ((row + 1) * cols + col) = - col := by ring
      omega
    · have : (row + 1) * cols + 0 - ((row + 1) * cols + col - 1) = 1 - col := by ring
      omega
    · exact h hc1
    · have : (row + 1) * cols + 0 - (row * cols + col - 1) = cols - col + 1 := by ring
      omega
    · exact h hc1

/-- A run of C13 on the 3x3 board `$.$` / `.$.` / `$.$` at the cell `(1, 0)`
with threshold `0.5`. -/
theorem C13_reads_in_bounds_witness :
    count_neighbours ['$', '.', '$', '.', '$', '.', '$', '.', '$'] 1 0 3 3 '.' =
        tally_all ['$', '.', '$', '.', '$', '.', '$', '.', '$'] '.'
          (neighbour_reads 1 0 3 3) (0, 0) ∧
      (check_placement ['$', '.', '$', '.', '$', '.', '$', '.', '$'] 1 0 3 3 (.fin 1 (-1)) '.'
          = some 0 ∨
        check_placement ['$', '.', '$', '.', '$', '.', '$', '.', '$'] 1 0 3 3 (.fin 1 (-1)) '.'
          = some 1) :=
  ⟨(C13_reads_in_bounds ['$', '.', '$', '.', '$', '.', '$', '.', '$'] 1 0 3 3 (.fin 1 (-1)) '.'
      (by decide) (by decide) (by decide)).1,
    (C13_reads_in_bounds ['$', '.', '$', '.', '$', '.', '$', '.', '$'] 1 0 3 3 (.fin 1 (-1)) '.'
      (by decide) (by decide) (by decide)).2.2.2.2⟩

/-! ## The order of the moves in a round -/

theorem scanned_filter (board : List Char) (rows cols : Int) (thr : F32) (L : Nat) :
    (scanned board rows cols thr L).filter (fun v => decide (v ≠ -1)) =
      unhappy_indices board rows cols thr := by
  rw [scanned, List.filter_append]
  have h1 : (unhappy_indices board rows cols thr).filter (fun v => decide (v ≠ -1)) =
      unhappy_indices board rows cols thr := by
    rw [List.filter_eq_self]
    intro v hv
    obtain ⟨i, rfl, _, _⟩ := (mem_unhappy_indices board rows cols thr v).mp hv
    simp
  have h2 : (List.replicate (L - (unhappy_indices board rows cols thr).length) (-1 : Int)).filter
      (fun v => decide (v ≠ -1)) = [] := by
    rw [List.filter_eq_nil_iff]
    intro v hv
    simp [(List.mem_replicate.mp hv).2]
  rw [h1, h2, List.append_nil]

theorem move_placement_at (board : List Char) (R C : Nat) (v : Int)
    (hlen : board.length = R * C) (hv : 0 ≤ v ∧ v < ((R * C : Nat) : Int)) :
    ∃ b, move_placement board (Int.tdiv v (C : Int)) (Int.tmod v (C : Int)) (R : Int) (C : Int)
        = some b ∧ b.length = R * C := by
  have hpos : Int.tdiv v (C : Int) * (C : Int) + Int.tmod v (C : Int) = (v.toNat : Int) := by
    rw [Int.tdiv_add_tmod']; omega
  have hNi : (R : Int) * (C : Int) = (board.length : Int) := by rw [hlen]; push_cast; ring
  obtain ⟨b, hb, hbl, _⟩ := move_placement_occupied board _ _ (R : Int) (C : Int) v.toNat hNi
    hpos (by rw [hlen]; omega)
  exact ⟨b, hb, by rw [hbl, hlen]⟩

theorem round_loop_moves (R C : Nat) :
    ∀ (k i : Nat) (s : Sim), i + k = s.unhappy_spots.length →
      (∀ v ∈ s.unhappy_spots, v = -1 ∨ (0 ≤ v ∧ v < ((R * C : Nat) : Int))) →
      s.board.length = R * C → 0 < s.num_iterations →
      (s.num_iterations ≤
          (((s.unhappy_spots.drop i).filter (fun v => decide (v ≠ -1))).length : Int) →
        ∃ b, apply_moves (R : Int) (C : Int)
            (((s.unhappy_spots.drop i).filter (fun v => decide (v ≠ -1))).take
              s.num_iterations.toNat) s.board = some b ∧
          round_loop (R : Int) (C : Int) k (i : Int) s =
            .exit { board := b, unhappy_spots := s.unhappy_spots, num_iterations := 0,
                    moves := s.moves + s.num_iterations.toNat }) ∧
      ((((s.unhappy_spots.drop i).filter (fun v => decide (v ≠ -1))).length : Int)
          < s.num_iterations →
        ∃ b, apply_moves (R : Int) (C : Int)
            ((s.unhappy_spots.drop i).filter (fun v => decide (v ≠ -1))) s.board = some b ∧
          round_loop (R : Int) (C : Int) k (i : Int) s =
            .next { board := b, unhappy_spots := s.unhappy_spots,
                    num_iterations := s.num_iterations -
                      (((s.unhappy_spots.drop i).filter (fun v => decide (v ≠ -1))).length : Int),
                    moves := s.moves +
                      ((s.unhappy_spots.drop i).filter (fun v => decide (v ≠ -1))).length }) := by
  intro k
  induction k with
  | zero =>
    intro i s hik _ _ hn
    have hd : s.unhappy_spots.drop i = [] := List.drop_eq_nil_of_le (by omega)
    rw [hd]
    constructor
    · intro h; simp at h; omega
    · intro _
      exact ⟨s.board, rfl, by simp [round_loop]⟩
  | succ k ih =>
    intro i s hik hval hlen hn
    have hi : i < s.unhappy_spots.length := by omega
    have hc : ((i : Int) + 1) = ((i + 1 : Nat) : Int) := by push_cast; rfl
    have hd : s.unhappy_spots.drop i = s.unhappy_spots[i] :: s.unhappy_spots.drop (i + 1) :=
      List.drop_eq_getElem_cons hi
    rw [hd, round_loop, rd_natCast, List.getElem?_eq_getElem hi]
    simp only []
    by_cases hv : s.unhappy_spots[i] = -1
    · rw [if_neg (by simpa using hv), hc, List.filter_cons_of_neg (by simpa using hv)]
      exact ih (i + 1) s (by omega) hval hlen hn
    · rw [if_pos hv, List.filter_cons_of_pos (by simpa using hv)]
      have hmem : s.unhappy_spots[i] ∈ s.unhappy_spots := List.getElem_mem _
      have hvv : 0 ≤ s.unhappy_spots[i] ∧ s.unhappy_spots[i] < ((R * C : Nat) : Int) := by
        rcases hval _ hmem with h | h
        · exact absurd h hv
        · exact h
      obtain ⟨b1, hb1, hb1len⟩ := move_placement_at s.board R C _ hlen hvv
      rw [hb1]
      simp only []
      by_cases hz : s.num_iterations - 1 = 0
      · have hn1 : s.num_iterations = 1 := by omega
        rw [if_pos hz]
        constructor
        · intro _
          refine ⟨b1, ?_, ?_⟩
          · rw [hn1]
            simp [apply_moves, hb1]
          · rw [hn1]; simp
        · intro h; simp at h; omega
      · rw [if_neg hz, hc]
        have hIH := ih (i + 1)
          { s with board := b1, num_iterations := s.num_iterations - 1, moves := s.moves + 1 }
          (by simpa using (by omega : i + 1 + k = s.unhappy_spots.length)) hval hb1len
          (by simp; omega)
        simp only [] at hIH
        have htn : s.num_iterations.toNat = (s.num_iterations - 1).toNat + 1 := by omega
        constructor
        · intro h
          obtain ⟨b, hb, hr⟩ := hIH.1 (by simp at h ⊢; omega)
          refine ⟨b, ?_, ?_⟩
          · rw [htn, List.take_succ_cons, apply_moves, hb1]
            exact hb
          · rw [hr]
            simp only [Flow.exit.injEq, Sim.mk.injEq, true_and]
            omega
        · intro h
          obtain ⟨b, hb, hr⟩ := hIH.2 (by simp at h ⊢; omega)
          refine ⟨b, ?_, ?_⟩
          · rw [apply_moves, hb1]
            exact hb
          · rw [hr]
            simp only [Flow.next.injEq, Sim.mk.injEq, true_and, List.length_cons]
            constructor
            · push_cast; ring
            · omega

theorem while_loop_exit (rows cols : Int) (thr : F32) (L : Nat) (fuel : Nat) (s s1 : Sim)
    (hsp : s.unhappy_spots = scanned s.board rows cols thr L)
    (hroom : (unhappy_indices s.board rows cols thr).length ≤ L)
    (hne : unhappy_indices s.board rows cols thr ≠ []) (hn : 0 < s.num_iterations)
    (hround : round_loop rows cols L 0 s = .exit s1) :
    while_loop rows cols thr (L : Int) (fuel + 1) s = .exit s1 := by
  rw [while_loop, hsp, unhappy_boolean_scanned s.board rows cols thr L hroom]
  simp only []
  rw [if_neg hne, if_pos ⟨rfl, hn⟩, Int.toNat_ofNat, hround]

theorem while_loop_next (rows cols : Int) (thr : F32) (L : Nat) (fuel : Nat) (s s1 : Sim)
    (hrows : 0 ≤ rows) (hcols : 0 ≤ cols)
    (hsp : s.unhappy_spots = scanned s.board rows cols thr L)
    (hroom : (unhappy_indices s.board rows cols thr).length ≤ L)
    (hne : unhappy_indices s.board rows cols thr ≠ []) (hn : 0 < s.num_iterations)
    (hround : round_loop rows cols L 0 s = .next s1)
    (hsp1 : s1.unhappy_spots.length = L)
    (hN1 : (s1.board.length : Int) = rows * cols)
    (hroom1 : (unhappy_indices s1.board rows cols thr).length ≤ L) :
    while_loop rows cols thr (L : Int) (fuel + 1) s =
      while_loop rows cols thr (L : Int) fuel
        { s1 with unhappy_spots := scanned s1.board rows cols thr L } := by
  have hfill : fill_placeholders L 0 s1.unhappy_spots = some (List.replicate L (-1)) := by
    have := fill_placeholders_eq s1.unhappy_spots
    rw [hsp1] at this
    exact this
  rw [while_loop, hsp, unhappy_boolean_scanned s.board rows cols thr L hroom]
  simp only []
  rw [if_neg hne, if_pos ⟨rfl, hn⟩, Int.toNat_ofNat, hround]
  simp only []
  rw [hfill]
  simp only []
  rw [check_agents_scanned s1.board rows cols thr L hrows hcols hN1 hroom1]

/-- C11 (the order of the moves in a round). On a board of `rows * cols`
cells whose occupants fit the buffer, let `u` be the unhappy indices of the
first scan, `m ≥ 1` of them, and `k ≥ 1` the budget. The first round calls
`move_placement` at `u_0, u_1, ...` in this order, from the one buffer it was
given. If `k ≤ m` the simulation ends inside that round, after `k` moves,
with the budget at `0`, on the board that the moves at `u_0, ..., u_(k-1)`
give. If `k > m` the round ends after the moves at all of `u`, on the board
they give and with the budget `k - m`, and the simulation goes on from there
with a new scan. -/
theorem C11_round_order (board : List Char) (rows cols : Int) (threshold : F32)
    (k num_chars : Int) (hrows : 1 ≤ rows) (hcols : 1 ≤ cols)
    (hN : (board.length : Int) = rows * cols) (hocc : (occupied board : Int) ≤ num_chars)
    (hm : 1 ≤ (unhappy_indices board rows cols threshold).length) (hk : 1 ≤ k) :
    (k ≤ ((unhappy_indices board rows cols threshold).length : Int) →
      ∃ b, apply_moves rows cols
          ((unhappy_indices board rows cols threshold).take k.toNat) board = some b ∧
        simulate board rows cols k threshold num_chars =
          .exit { board := b,
                  unhappy_spots := scanned board rows cols threshold num_chars.toNat,
                  num_iterations := 0, moves := k.toNat }) ∧
    (((unhappy_indices board rows cols threshold).length : Int) < k →
      ∃ b, apply_moves rows cols (unhappy_indices board rows cols threshold) board = some b ∧
        round_loop rows cols num_chars.toNat 0
            { board := board,
              unhappy_spots := scanned board rows cols threshold num_chars.toNat,
              num_iterations := k, moves := 0 } =
          .next { board := b,
                  unhappy_spots := scanned board rows cols threshold num_chars.toNat,
                  num_iterations := k - ((unhappy_indices board rows cols threshold).length : Int),
                  moves := (unhappy_indices board rows cols threshold).length } ∧
        simulate board rows cols k threshold num_chars =
          while_loop rows cols threshold num_chars (k.toNat - 1)
            { board := b,
              unhappy_spots := scanned b rows cols threshold num_chars.toNat,
              num_iterations := k - ((unhappy_indices board rows cols threshold).length : Int),
              moves := (unhappy_indices board rows cols threshold).length }) := by
  obtain ⟨R, rfl⟩ := Int.eq_ofNat_of_zero_le (by omega : 0 ≤ rows)
  obtain ⟨C, rfl⟩ := Int.eq_ofNat_of_zero_le (by omega : 0 ≤ cols)
  obtain ⟨L, rfl⟩ := Int.eq_ofNat_of_zero_le (le_trans (Int.ofNat_nonneg _) hocc)
  have hN1 : R * C = board.length := by
    have : ((R * C : Nat) : Int) = (board.length : Int) := by push_cast; exact hN.symm
    exact_mod_cast this
  have hroom : (unhappy_indices board (R : Int) (C : Int) threshold).length ≤ L := by
    have h1 := unhappy_indices_length_le board (R : Int) (C : Int) threshold hN.symm
    have h2 : occupied board ≤ L := by exact_mod_cast hocc
    omega
  have hne : unhappy_indices board (R : Int) (C : Int) threshold ≠ [] := by
    intro h; rw [h] at hm; simp at hm
  have hRC : ((R : Int) * (C : Int)).toNat = R * C := by
    rw [← Nat.cast_mul, Int.toNat_ofNat]
  have hval : ∀ v ∈ scanned board (R : Int) (C : Int) threshold L,
      v = -1 ∨ (0 ≤ v ∧ v < ((R * C : Nat) : Int)) := by
    intro v hv
    have := scanned_entries board _ _ threshold L v hv
    rw [hRC] at this
    exact this
  have hspl := scanned_length board (R : Int) (C : Int) threshold L hroom
  obtain ⟨f, hf⟩ : ∃ f, k.toNat = f + 1 := ⟨k.toNat - 1, by omega⟩
  have hmoves := round_loop_moves R C L 0
    { board := board, unhappy_spots := scanned board (R : Int) (C : Int) threshold L,
      num_iterations := k, moves := 0 } (by simp [hspl]) hval hN1.symm (by simp; omega)
  simp only [List.drop_zero, scanned_filter, Nat.zero_add] at hmoves
  have h0 : ((0 : Nat) : Int) = 0 := rfl
  rw [h0] at hmoves
  rw [simulate_eq board R C L threshold k hN1 hroom, Int.toNat_ofNat, hf]
  rw [hf] at hmoves
  constructor
  · intro hle
    obtain ⟨b, hb, hr⟩ := hmoves.1 hle
    refine ⟨b, hb, ?_⟩
    exact while_loop_exit (R : Int) (C : Int) threshold L f _ _ rfl hroom hne (by simp; omega) hr
  · intro hlt
    obtain ⟨b, hb, hr⟩ := hmoves.2 hlt
    refine ⟨b, hb, hr, ?_⟩
    obtain ⟨s1, hres, hlen1, hP1, _⟩ := round_loop_spec R C
      (fun b1 => occupied b1 = occupied board)
      (fun b1 p j _ hp hjp hj hb1 => (occupied_movedTo b1 p j hp hjp hj).trans hb1)
      L 0 { board := board, unhappy_spots := scanned board (R : Int) (C : Int) threshold L,
            num_iterations := k, moves := 0 } (by simp [hspl]) hval hN1.symm rfl
      (by simp; omega)
    rw [h0, hr] at hres
    have hs1 : s1 = Sim.mk b (scanned board (R : Int) (C : Int) threshold L)
        (k - ((unhappy_indices board (R : Int) (C : Int) threshold).length : Int))
        (unhappy_indices board (R : Int) (C : Int) threshold).length := by
      rcases hres with ⟨h, _⟩ | ⟨h, _⟩
      · exact absurd h Flow.noConfusion
      · exact (Flow.next.inj h).symm
    rw [hs1] at hlen1 hP1
    simp only [] at hlen1 hP1
    have hNb : ((b.length : Nat) : Int) = (R : Int) * (C : Int) := by
      rw [hlen1]; push_cast; ring
    have hroomb : (unhappy_indices b (R : Int) (C : Int) threshold).length ≤ L := by
      have h1 := unhappy_indices_length_le b (R : Int) (C : Int) threshold hNb.symm
      have h2 : occupied board ≤ L := by exact_mod_cast hocc
      omega
    have hnext := while_loop_next (R : Int) (C : Int) threshold L f
      { board := board, unhappy_spots := scanned board (R : Int) (C : Int) threshold L,
        num_iterations := k, moves := 0 } _ (by omega) (by omega) rfl hroom hne
      (by simp; omega) hr (by simp [hspl]) hNb hroomb
    rw [hnext]
    simp

/-- A run of C11 on the 1x3 board `$. ` with threshold `1.0`, budget `1` and a
buffer of two entries: two agents are unhappy, and the simulation ends after
the move of the first. -/
theorem C11_round_order_witness :
    ∃ b, apply_moves 1 3
        ((unhappy_indices ['$', '.', ' '] 1 3 (.fin 1 0)).take (1 : Int).toNat)
        ['$', '.', ' '] = some b ∧
      simulate ['$', '.', ' '] 1 3 1 (.fin 1 0) 2 =
        .exit { board := b,
                unhappy_spots := scanned ['$', '.', ' '] 1 3 (.fin 1 0) (2 : Int).toNat,
                num_iterations := 0, moves := (1 : Int).toNat } :=
  (C11_round_order ['$', '.', ' '] 1 3 (.fin 1 0) 1 2 (by decide) (by decide) (by decide)
    (by decide) (by decide) (by decide)).1 (by decide)

/-- C18 (an agent that became happy is still moved). On the 1x5 board
`.$.  ` with threshold `1.0` the scan finds the agents at `0`, `1` and `2`
unhappy. After the moves at `0` and `1` the board is `  ..$`, on which the
agent at index `2` has one neighbour of its type and none of the other, and
`check_placement` returns `1` for it; the round moves it all the same, to
index `0`, and with a budget of `3` the simulation ends there, on `.  .$`. -/
theorem C18_happy_agent_moved :
    unhappy_indices ['.', '$', '.', ' ', ' '] 1 5 (.fin 1 0) = [0, 1, 2] ∧
    apply_moves 1 5 [0, 1] ['.', '$', '.', ' ', ' '] = some [' ', ' ', '.', '.', '$'] ∧
    same_neighbours [' ', ' ', '.', '.', '$'] 0 2 1 5 '.' = 1 ∧
    different_neighbours [' ', ' ', '.', '.', '$'] 0 2 1 5 '.' = 0 ∧
    check_placement [' ', ' ', '.', '.', '$'] 0 2 1 5 (.fin 1 0) '.' = some 1 ∧
    move_placement [' ', ' ', '.', '.', '$'] (Int.tdiv 2 5) (Int.tmod 2 5) 1 5 =
      some ['.', ' ', ' ', '.', '$'] ∧
    apply_moves 1 5 [0, 1, 2] ['.', '$', '.', ' ', ' '] = some ['.', ' ', ' ', '.', '$'] ∧
    simulate ['.', '$', '.', ' ', ' '] 1 5 3 (.fin 1 0) 3 =
      .exit { board := ['.', ' ', ' ', '.', '$'], unhappy_spots := [0, 1, 2],
              num_iterations := 0, moves := 3 } ∧
    round_loop 1 5 3 0
        { board := ['.', '$', '.', ' ', ' '], unhappy_spots := [0, 1, 2],
          num_iterations := 4, moves := 0 } =
      .next { board := ['.', ' ', ' ', '.', '$'], unhappy_spots := [0, 1, 2],
              num_iterations := 1, moves := 3 } := by
  decide

/-! ## The unhappy set stays valid within a round -/

theorem move_placement_keeps (board b : List Char) (R C : Nat) (v w : Int)
    (hlen : board.length = R * C) (hv : 0 ≤ v ∧ v < ((R * C : Nat) : Int))
    (hw : 0 ≤ w ∧ w < ((R * C : Nat) : Int)) (hwv : w ≠ v)
    (hfull : rd board w ≠ some ' ')
    (hmove : move_placement board (Int.tdiv v (C : Int)) (Int.tmod v (C : Int))
      (R : Int) (C : Int) = some b) :
    rd b w = rd board w := by
  have hpos : Int.tdiv v (C : Int) * (C : Int) + Int.tmod v (C : Int) = (v.toNat : Int) := by
    rw [Int.tdiv_add_tmod']; omega
  have hNi : (R : Int) * (C : Int) = (board.length : Int) := by rw [hlen]; push_cast; ring
  have hp : v.toNat < board.length := by rw [hlen]; omega
  obtain ⟨q, rfl⟩ : ∃ q : Nat, w = (q : Int) := ⟨w.toNat, by omega⟩
  rw [rd_natCast] at hfull ⊢
  rw [rd_natCast]
  rcases move_placement_cases board _ _ (R : Int) (C : Int) v.toNat hNi hpos hp with
    h | ⟨j, hjp, hj, h⟩
  · rw [h] at hmove
    rw [← Option.some.inj hmove]
  · rw [h] at hmove
    rw [← Option.some.inj hmove]
    have hjl : j < board.length := by
      by_contra hh
      rw [List.getElem?_eq_none (by omega)] at hj
      exact Option.noConfusion hj
    refine (movedTo_cells board v.toNat j hp hjl hjp).2.2.2 q (by omega) ?_
    intro hqj
    rw [hqj] at hfull
    exact hfull hj

/-- The entries `vs` are indices of the board `b` at which `b` holds what
`board0` holds, and that is not the blank. -/
theorem fresh_after_move (board0 board b : List Char) (R C : Nat) (v : Int) (vs : List Int)
    (hlen : board.length = R * C)
    (hnodup : (v :: vs).Nodup)
    (hfresh : ∀ w ∈ v :: vs, (0 ≤ w ∧ w < ((R * C : Nat) : Int)) ∧
      rd board w = rd board0 w ∧ rd board w ≠ some ' ')
    (hmove : move_placement board (Int.tdiv v (C : Int)) (Int.tmod v (C : Int))
      (R : Int) (C : Int) = some b) :
    ∀ w ∈ vs, (0 ≤ w ∧ w < ((R * C : Nat) : Int)) ∧
      rd b w = rd board0 w ∧ rd b w ≠ some ' ' := by
  intro w hw
  have hwv : w ≠ v := by
    intro h
    rw [h] at hw
    exact (List.nodup_cons.mp hnodup).1 hw
  obtain ⟨h1, h2, h3⟩ := hfresh w (List.mem_cons_of_mem _ hw)
  have hkeep := move_placement_keeps board b R C v w hlen
    (hfresh v (List.mem_cons_self _ _)).1 h1 hwv h3 hmove
  exact ⟨h1, by rw [hkeep]; exact h2, by rw [hkeep]; exact h3⟩

theorem apply_moves_fresh (board0 : List Char) (R C : Nat) :
    ∀ (pre rest : List Int) (board : List Char), board.length = R * C →
      (pre ++ rest).Nodup →
      (∀ w ∈ pre ++ rest, (0 ≤ w ∧ w < ((R * C : Nat) : Int)) ∧
        rd board w = rd board0 w ∧ rd board w ≠ some ' ') →
      ∃ b, apply_moves (R : Int) (C : Int) pre board = some b ∧ b.length = R * C ∧
        ∀ w ∈ rest, (0 ≤ w ∧ w < ((R * C : Nat) : Int)) ∧
          rd b w = rd board0 w ∧ rd b w ≠ some ' ' := by
  intro pre
  induction pre with
  | nil => intro rest board hlen _ hfresh; exact ⟨board, rfl, hlen, hfresh⟩
  | cons v pre ih =>
    intro rest board hlen hnodup hfresh
    obtain ⟨b1, hb1, hb1len⟩ := move_placement_at board R C v hlen
      (hfresh v (by simp)).1
    have hfresh1 := fresh_after_move board0 board b1 R C v (pre ++ rest) hlen hnodup hfresh hb1
    obtain ⟨b, hb, hbl, hbf⟩ := ih rest b1 hb1len (List.nodup_cons.mp hnodup).2 hfresh1
    exact ⟨b, by rw [apply_moves, hb1]; exact hb, hbl, hbf⟩

theorem unhappy_indices_fresh (board : List Char) (R C : Nat) (thr : F32) :
    (unhappy_indices board (R : Int) (C : Int) thr).Nodup ∧
    ∀ w ∈ unhappy_indices board (R : Int) (C : Int) thr,
      (0 ≤ w ∧ w < ((R * C : Nat) : Int)) ∧ rd board w = rd board w ∧ rd board w ≠ some ' ' := by
  constructor
  · exact (unhappy_indices_pairwise board _ _ thr).imp (fun h => ne_of_lt h)
  · intro w hw
    obtain ⟨i, rfl, hi, hu⟩ := (mem_unhappy_indices board _ _ thr w).mp hw
    obtain ⟨ch, hb, hne, _⟩ := unhappy_at_nonempty board _ _ thr i hu
    have hRC : ((R : Int) * (C : Int)).toNat = R * C := by
      rw [← Nat.cast_mul, Int.toNat_ofNat]
    rw [hRC] at hi
    refine ⟨⟨by omega, by exact_mod_cast hi⟩, rfl, ?_⟩
    rw [rd_natCast, hb]
    intro h
    exact hne (Option.some.inj h)

theorem round_loop_monitored_eq (board0 : List Char) (R C : Nat) :
    ∀ (k i : Nat) (s : Sim), i + k = s.unhappy_spots.length →
      s.board.length = R * C →
      ((s.unhappy_spots.drop i).filter (fun v => decide (v ≠ -1))).Nodup →
      (∀ w ∈ (s.unhappy_spots.drop i).filter (fun v => decide (v ≠ -1)),
        (0 ≤ w ∧ w < ((R * C : Nat) : Int)) ∧
          rd s.board w = rd board0 w ∧ rd s.board w ≠ some ' ') →
      round_loop_monitored board0 (R : Int) (C : Int) k (i : Int) s =
        round_loop (R : Int) (C : Int) k (i : Int) s := by
  intro k
  induction k with
  | zero => intro i s _ _ _ _; rfl
  | succ k ih =>
    intro i s hik hlen hnodup hfresh
    have hi : i < s.unhappy_spots.length := by omega
    have hc : ((i : Int) + 1) = ((i + 1 : Nat) : Int) := by push_cast; rfl
    have hd : s.unhappy_spots.drop i = s.unhappy_spots[i] :: s.unhappy_spots.drop (i + 1) :=
      List.drop_eq_getElem_cons hi
    rw [hd] at hnodup hfresh
    rw [round_loop_monitored, round_loop, rd_natCast, List.getElem?_eq_getElem hi]
    simp only []
    by_cases hv : s.unhappy_spots[i] = -1
    · rw [if_neg (by simpa using hv), if_neg (by simpa using hv), hc]
      rw [List.filter_cons_of_neg (by simpa using hv)] at hnodup hfresh
      exact ih (i + 1) s (by omega) hlen hnodup hfresh
    · rw [if_pos hv, if_pos hv]
      rw [List.filter_cons_of_pos (by simpa using hv)] at hnodup hfresh
      obtain ⟨hvv, hsame, hfull⟩ := hfresh _ (List.mem_cons_self _ _)
      rw [if_neg (by
        intro h
        rcases h with h | h
        · exact hfull h
        · exact h hsame)]
      obtain ⟨b1, hb1, hb1len⟩ := move_placement_at s.board R C _ hlen hvv
      rw [hb1]
      simp only []
      by_cases hz : s.num_iterations - 1 = 0
      · rw [if_pos hz, if_pos hz]
      · rw [if_neg hz, if_neg hz, hc]
        exact ih (i + 1) _ (by simpa using (by omega : i + 1 + k = s.unhappy_spots.length))
          hb1len hnodup.of_cons
          (fresh_after_move board0 s.board b1 R C _ _ hlen hnodup hfresh hb1)

theorem while_loop_monitored_eq (R C L : Nat) (thr : F32) (c : Nat) (hc : c ≤ L) :
    ∀ (fuel : Nat) (s : Sim), s.board.length = R * C → occupied s.board = c →
      s.unhappy_spots = scanned s.board (R : Int) (C : Int) thr L →
      while_loop_monitored (R : Int) (C : Int) thr (L : Int) fuel s =
        while_loop (R : Int) (C : Int) thr (L : Int) fuel s := by
  have hNi : ∀ b : List Char, b.length = R * C → (R : Int) * (C : Int) = (b.length : Int) := by
    intro b hb; rw [hb]; push_cast; ring
  have hU : ∀ b : List Char, b.length = R * C → occupied b = c →
      (unhappy_indices b (R : Int) (C : Int) thr).length ≤ L := by
    intro b hb hPb
    have h1 := unhappy_indices_length_le b (R : Int) (C : Int) thr (hNi b hb)
    omega
  intro fuel
  induction fuel with
  | zero =>
    intro s _ _ _
    rw [while_loop_monitored, while_loop]
  | succ fuel ih =>
    intro s hlen hocc hsp
    have hUs := hU s.board hlen hocc
    rw [while_loop_monitored, while_loop, hsp,
      unhappy_boolean_scanned s.board _ _ thr L hUs]
    simp only []
    by_cases hcond : (if unhappy_indices s.board (R : Int) (C : Int) thr = [] then (0 : Int)
        else 1) = 1 ∧ s.num_iterations > 0
    · rw [if_pos hcond, if_pos hcond, Int.toNat_ofNat]
      have hspl : (scanned s.board (R : Int) (C : Int) thr L).length = L :=
        scanned_length s.board _ _ thr L hUs
      have hRC : ((R : Int) * (C : Int)).toNat = R * C := by
        rw [← Nat.cast_mul, Int.toNat_ofNat]
      have hval : ∀ v ∈ s.unhappy_spots, v = -1 ∨ (0 ≤ v ∧ v < ((R * C : Nat) : Int)) := by
        intro v hv
        rw [hsp] at hv
        have := scanned_entries s.board _ _ thr L v hv
        rw [hRC] at this
        exact this
      have h0 : ((0 : Nat) : Int) = 0 := rfl
      have hfr := unhappy_indices_fresh s.board R C thr
      have hmon := round_loop_monitored_eq s.board R C L 0 s (by rw [hsp, hspl]; omega) hlen
        (by rw [hsp, List.drop_zero, scanned_filter]; exact hfr.1)
        (by rw [hsp, List.drop_zero, scanned_filter]; exact hfr.2)
      rw [h0] at hmon
      rw [hmon]
      obtain ⟨s1, hres, hlen1, hP1, hsp1, _⟩ := round_loop_spec R C
        (fun b1 => occupied b1 = c)
        (fun b1 p j _ hp hjp hj hb1 => (occupied_movedTo b1 p j hp hjp hj).trans hb1)
        L 0 s (by rw [hsp, hspl]; omega) hval hlen hocc hcond.2
      rw [h0] at hres
      rcases hres with ⟨hr, _⟩ | ⟨hr, _⟩
      · rw [hr]
      · rw [hr]
        simp only []
        have hfill : fill_placeholders L 0 s1.unhappy_spots = some (List.replicate L (-1)) := by
          have := fill_placeholders_eq s1.unhappy_spots
          rw [hsp1, hsp, hspl] at this
          rw [hsp1, hsp]; exact this
        rw [hfill]
        simp only []
        rw [check_agents_spec s1.board R C thr L hlen1.symm (hU s1.board hlen1 hP1)]
        simp only []
        exact ih _ hlen1 hP1 rfl
    · rw [if_neg hcond, if_neg hcond]

theorem simulate_monitored_eq (board : List Char) (R C L : Nat) (thr : F32) (n : Int)
    (hN : R * C = board.length) (hocc : occupied board ≤ L) :
    simulate_monitored board (R : Int) (C : Int) n thr (L : Int) =
      simulate board (R : Int) (C : Int) n thr (L : Int) := by
  have hNi : (R : Int) * (C : Int) = (board.length : Int) := by rw [← hN]; push_cast; ring
  have hU : (unhappy_indices board (R : Int) (C : Int) thr).length ≤ L := by
    have h1 := unhappy_indices_length_le board (R : Int) (C : Int) thr hNi
    omega
  have hfill := fill_placeholders_eq (List.replicate L (0 : Int))
  rw [List.length_replicate] at hfill
  rw [simulate_monitored, simulate, Int.toNat_ofNat, hfill]
  simp only []
  rw [check_agents_spec board R C thr L hN hU]
  simp only []
  exact while_loop_monitored_eq R C L thr (occupied board) hocc n.toNat _ hN.symm rfl rfl

/-- C15 (the unhappy set of a round stays valid). On a board of `rows * cols`
cells, let `u` be the unhappy indices of a scan. After the moves at
`u_0, ..., u_(j-1)`, in this order, the cell `u_j` holds the character it held
at the scan, and is not empty. So the simulation never calls `move_placement`
at an empty cell: with a monitor that stops the round when the cell to be
moved is empty, or holds another character than at the start of the round,
the simulation gives the same result, and that result is a final state. -/
theorem C15_stale_set_valid (board : List Char) (rows cols : Int) (threshold : F32)
    (n num_chars : Int) (hrows : 1 ≤ rows) (hcols : 1 ≤ cols)
    (hN : (board.length : Int) = rows * cols) (hocc : (occupied board : Int) ≤ num_chars) :
    (∀ (j : Nat) (v : Int), (unhappy_indices board rows cols threshold)[j]? = some v →
      ∃ b, apply_moves rows cols ((unhappy_indices board rows cols threshold).take j) board
          = some b ∧
        rd b v = rd board v ∧ rd b v ≠ some ' ') ∧
    simulate_monitored board rows cols n threshold num_chars =
      simulate board rows cols n threshold num_chars ∧
    ∃ s, (simulate_monitored board rows cols n threshold num_chars).final = some s := by
  obtain ⟨R, rfl⟩ := Int.eq_ofNat_of_zero_le (by omega : 0 ≤ rows)
  obtain ⟨C, rfl⟩ := Int.eq_ofNat_of_zero_le (by omega : 0 ≤ cols)
  obtain ⟨L, rfl⟩ := Int.eq_ofNat_of_zero_le (le_trans (Int.ofNat_nonneg _) hocc)
  have hN1 : R * C = board.length := by
    have : ((R * C : Nat) : Int) = (board.length : Int) := by push_cast; exact hN.symm
    exact_mod_cast this
  have hoccL : occupied board ≤ L := by exact_mod_cast hocc
  have heq := simulate_monitored_eq board R C L threshold n hN1 hoccL
  refine ⟨?_, heq, ?_⟩
  · intro j v hj
    have hfr := unhappy_indices_fresh board R C threshold
    have hsplit := List.take_append_drop j (unhappy_indices board (R : Int) (C : Int) threshold)
    obtain ⟨b, hb, _, hbf⟩ := apply_moves_fresh board R C
      ((unhappy_indices board (R : Int) (C : Int) threshold).take j)
      ((unhappy_indices board (R : Int) (C : Int) threshold).drop j) board hN1.symm
      (by rw [hsplit]; exact hfr.1) (by rw [hsplit]; exact hfr.2)
    have hjl : j < (unhappy_indices board (R : Int) (C : Int) threshold).length := by
      by_contra hh
      rw [List.getElem?_eq_none (by omega)] at hj
      exact Option.noConfusion hj
    have hmem : v ∈ (unhappy_indices board (R : Int) (C : Int) threshold).drop j := by
      rw [List.drop_eq_getElem_cons hjl]
      rw [List.getElem?_eq_getElem hjl] at hj
      rw [Option.some.inj hj]
      exact List.mem_cons_self _ _
    exact ⟨b, hb, (hbf v hmem).2⟩
  · rw [heq]
    obtain ⟨s, hres, _⟩ := simulate_spec board (R : Int) (C : Int) n threshold (L : Int)
      (by omega) (by omega) hN hocc (fun _ => True) trivial (fun _ _ _ _ _ _ _ _ => trivial)
    refine ⟨s, ?_⟩
    rcases hres with ⟨h, _⟩ | ⟨h, _⟩ <;> rw [h] <;> rfl

/-- A run of C15 on the 1x5 board `.$.  ` with threshold `1.0`, budget `10`
and a buffer of three entries. -/
theorem C15_stale_set_valid_witness :
    simulate_monitored ['.', '$', '.', ' ', ' '] 1 5 10 (.fin 1 0) 3 =
      simulate ['.', '$', '.', ' ', ' '] 1 5 10 (.fin 1 0) 3 :=
  (C15_stale_set_valid ['.', '$', '.', ' ', ' '] 1 5 (.fin 1 0) 10 3 (by decide) (by decide)
    (by decide) (by decide)).2.1

end Schelling
